import Mathlib

/-!
Verification development for the irmago client core: a shallow embedding of
`irmaconfig.go` (the configuration store: scheme-manager index parsing and
serialization, authenticated file reads, signature verification, scheme
parsing, and the mutating install/remove/update operations) and of
`session.go` (protocol-version negotiation and the session state machine),
together with theorems settling the specification's claims about them.

Modelling conventions:
* Byte strings are `List Nat` (byte values); text is Lean `String`, with all
  string manipulation done on `String.data` via structural list functions so
  that everything evaluates inside the kernel.  The Go sources at hand only
  ever split on single-character separators, so splitting is modelled for a
  `Char` separator.
* Go functions from the standard library or from external packages
  (`crypto/sha256`, `encoding/pem`, `crypto/x509`, `encoding/asn1`,
  `crypto/ecdsa`, `encoding/xml`, `encoding/base64`, HTTP transport) are
  abstracted as parameter functions collected in an `Ext` record; theorems
  quantify over them.
* Go's `panic`/`recover` is modelled explicitly with a `Res` result type that
  has a `panicked` constructor; `recover` converts `panicked` into an error,
  exactly as `VerifySignature` does in the source.
* The filesystem is a finite association list from slash-separated paths to
  contents; directories are implicit (a directory exists when some file lies
  strictly below it), matching how the Go code only ever discovers
  directories by globbing and walking.
-/

deriving instance DecidableEq for Except

/-- Byte strings (`[]byte` in Go); each entry is a byte value. -/
abbrev Bytes := List Nat

/-- The `SchemeManagerStatus` constants (src/irmaconfig.go:86). -/
inductive SchemeManagerStatus where
  | valid
  | unprocessed
  | invalidIndex
  | invalidSignature
  | parsingError
  | contentParsingError
  deriving DecidableEq, Repr

/-- Errors returned by the embedded Go functions.  `msg` covers
`errors.New`/`errors.Errorf` values by their rendered message; the two hex
constructors mirror the structured errors of `encoding/hex`; `sme` is the
scheme-scoped `SchemeManagerError` produced by `ParseSchemeManagerFolder`'s
deferred wrapper. -/
inductive GoErr where
  | msg (s : String)
  | hexOddLength
  | hexInvalidByte (c : Char)
  | sme (manager : String) (status : SchemeManagerStatus) (cause : GoErr)
  deriving DecidableEq, Repr

/-- Result of running a Go computation: normal value, error return, or panic
(with the runtime error message).  `recover` turns `panicked` into `err`. -/
inductive Res (α : Type) where
  | ok (a : α)
  | err (e : GoErr)
  | panicked (m : String)
  deriving DecidableEq, Repr

namespace Res

def bind {α β : Type} : Res α → (α → Res β) → Res β
  | ok a, f => f a
  | err e, _ => err e
  | panicked m, _ => panicked m

instance : Monad Res where
  pure := Res.ok
  bind := Res.bind

def isPanicked {α : Type} : Res α → Bool
  | panicked _ => true
  | _ => false

def isOk {α : Type} : Res α → Bool
  | ok _ => true
  | _ => false

end Res

/-! ### String helpers (structural, kernel-computable) -/

/-- `strings.Split(s, sep)` for a single-character separator: split on every
occurrence, keeping empty fields; the empty string yields `[[]]`, matching
Go's `[""]`. -/
def splitOnChar (sep : Char) : List Char → List (List Char)
  | [] => [[]]
  | c :: rest =>
    let r := splitOnChar sep rest
    if c = sep then [] :: r
    else
      match r with
      | h :: t => (c :: h) :: t
      | [] => [[c]]

/-- `strings.Split` on a `String`, producing `String`s. -/
def goSplit (s : String) (sep : Char) : List String :=
  (splitOnChar sep s.data).map String.mk

/-- Whether `needle` occurs as a contiguous substring of `hay`. -/
def containsSub (needle : List Char) : List Char → Bool
  | [] => needle.isEmpty
  | c :: t => needle.isPrefixOf (c :: t) || containsSub needle t

/-- Whether the string `hay` ends with `suffix`. -/
def strEndsWith (hay suffix : String) : Bool :=
  suffix.data.isSuffixOf hay.data

/-- Whether the string `hay` contains `needle` as a substring. -/
def strContains (hay needle : String) : Bool :=
  containsSub needle.data hay.data

/-- Whether `pre` is a prefix of `s`. -/
def strIsPrefixOf (pre s : String) : Bool :=
  pre.data.isPrefixOf s.data

/-- Byte-slicing `s[n:]`, modelled on characters. -/
def strDrop (s : String) (n : Nat) : String :=
  String.mk (s.data.drop n)

/-- Byte-slicing `s[:n]`, modelled on characters. -/
def strTake (s : String) (n : Nat) : String :=
  String.mk (s.data.take n)

/-- Character-wise length (the sources only manipulate ASCII paths). -/
def strLen (s : String) : Nat := s.data.length

/-- Lexicographic "less or equal" on character lists, by code point; agrees
with Go's byte-wise string comparison on ASCII. -/
def listLexLe : List Char → List Char → Bool
  | [], _ => true
  | _ :: _, [] => false
  | a :: as, b :: bs =>
    if a.toNat < b.toNat then true
    else if b.toNat < a.toNat then false
    else listLexLe as bs

/-- `≤` on strings as Go's `sort.Strings` compares them. -/
def strLe (a b : String) : Bool := listLexLe a.data b.data

/-- Insert into a `strLe`-sorted list. -/
def insertSortedStr (x : String) : List String → List String
  | [] => [x]
  | y :: ys => if strLe x y then x :: y :: ys else y :: insertSortedStr x ys

/-- Ascending insertion sort, modelling `sort.Strings`. -/
def sortStrings : List String → List String
  | [] => []
  | x :: xs => insertSortedStr x (sortStrings xs)

/-- Descending insertion sort on integers, modelling
`sort.Sort(sort.Reverse(sort.IntSlice(keys)))`. -/
def insertSortedIntDesc (x : Int) : List Int → List Int
  | [] => [x]
  | y :: ys => if y ≤ x then x :: y :: ys else y :: insertSortedIntDesc x ys

def sortIntDesc : List Int → List Int
  | [] => []
  | x :: xs => insertSortedIntDesc x (sortIntDesc xs)

/-! ### `strconv.Atoi` and decimal parsing -/

def digitVal (c : Char) : Option Nat :=
  if '0' ≤ c ∧ c ≤ '9' then some (c.toNat - 48) else none

def digitsVal : List Char → Option Nat → Option Nat
  | [], acc => acc
  | c :: rest, acc =>
    match digitVal c with
    | none => none
    | some d => digitsVal rest (some ((acc.getD 0) * 10 + d))

/-- `strconv.Atoi`: optional sign followed by at least one decimal digit. -/
def goAtoi (s : String) : Res Int :=
  let err : Res Int := .err (.msg ("strconv.Atoi: parsing " ++ s ++ ": invalid syntax"))
  match s.data with
  | [] => err
  | '-' :: rest =>
    match digitsVal rest none with
    | some n => .ok (-(n : Int))
    | none => err
  | '+' :: rest =>
    match digitsVal rest none with
    | some n => .ok (n : Int)
    | none => err
  | l =>
    match digitsVal l none with
    | some n => .ok (n : Int)
    | none => err

/-! ### Hex encoding/decoding (`encoding/hex`) -/

/-- Value of a hex digit, accepting `0-9`, `a-f`, `A-F` as
`encoding/hex` does. -/
def hexDigitValue (c : Char) : Option Nat :=
  if '0' ≤ c ∧ c ≤ '9' then some (c.toNat - 48)
  else if 'a' ≤ c ∧ c ≤ 'f' then some (c.toNat - 87)
  else if 'A' ≤ c ∧ c ≤ 'F' then some (c.toNat - 55)
  else none

/-- `hex.DecodeString`: decode pairs of hex digits; a non-digit yields
`InvalidByteError`, a trailing valid digit yields `ErrLength`. -/
def hexDecode : List Char → Except GoErr Bytes
  | [] => .ok []
  | [c] =>
    match hexDigitValue c with
    | some _ => .error .hexOddLength
    | none => .error (.hexInvalidByte c)
  | a :: b :: rest =>
    match hexDigitValue a with
    | none => .error (.hexInvalidByte a)
    | some hi =>
      match hexDigitValue b with
      | none => .error (.hexInvalidByte b)
      | some lo =>
        match hexDecode rest with
        | .error e => .error e
        | .ok t => .ok ((hi * 16 + lo) :: t)

/-- `hex.EncodeToString`: lowercase hex, two digits per byte. -/
def hexEncode (bs : Bytes) : String :=
  String.mk ((bs.map (fun b => [Nat.digitChar (b / 16), Nat.digitChar (b % 16)])).flatten)

/-! ### The scheme manager index (`SchemeManagerIndex`) -/

/-- `SchemeManagerIndex`: Go's `map[string]ConfigurationFileHash`, modelled
as an association list with unique keys maintained by `indexInsert`. -/
abbrev SchemeManagerIndex := List (String × Bytes)

/-- Map update `i[k] = v`: overwrite in place if present, append otherwise. -/
def indexInsert (m : SchemeManagerIndex) (k : String) (v : Bytes) : SchemeManagerIndex :=
  if m.any (fun e => e.1 = k) then
    m.map (fun e => if e.1 = k then (k, v) else e)
  else m ++ [(k, v)]

/-- Map lookup `i[k]`. -/
def indexLookup (m : SchemeManagerIndex) (k : String) : Option Bytes :=
  (m.find? (fun e => e.1 = k)).map (·.2)

/-- The recursion of `SchemeManagerIndex.FromString` over the numbered lines
of the index text: empty lines are skipped, a line with a number of
space-separated parts other than two fails with the line number, a hash
field that does not hex-decode fails with the hex error. -/
def fromStringAux (m : SchemeManagerIndex) (j : Nat) :
    List (List Char) → Except GoErr SchemeManagerIndex
  | [] => .ok m
  | line :: rest =>
    if line.isEmpty then fromStringAux m (j + 1) rest
    else
      match splitOnChar ' ' line with
      | [p0, p1] =>
        match hexDecode p0 with
        | .error e => .error e
        | .ok hash => fromStringAux (indexInsert m (String.mk p1) hash) (j + 1) rest
      | _ =>
        .error (.msg ("Scheme manager index line " ++ toString j ++
          " has incorrect amount of parts"))

/-- `SchemeManagerIndex.FromString`. -/
def SchemeManagerIndex.FromString (s : String) : Except GoErr SchemeManagerIndex :=
  fromStringAux [] 0 (splitOnChar '\n' s.data)

/-- `SchemeManagerIndex.String`: emit `hex(hash) ++ " " ++ path ++ "\n"` for
every path, in `sort.Strings` order. -/
def SchemeManagerIndex.toGoString (m : SchemeManagerIndex) : String :=
  String.join ((sortStrings (m.map (·.1))).map
    (fun p => hexEncode ((indexLookup m p).getD []) ++ " " ++ p ++ "\n"))

example : SchemeManagerIndex.FromString "abcd x\n" = .ok [("x", [171, 205])] := rfl

example : SchemeManagerIndex.toGoString [("x", [171, 205])] = "abcd x\n" := rfl

example :
    SchemeManagerIndex.FromString "zz x\n" = .error (.hexInvalidByte 'z') := rfl

example :
    SchemeManagerIndex.FromString "aa\n" =
      .error (.msg "Scheme manager index line 0 has incorrect amount of parts") := rfl

/-! ### Filesystem model -/

/-- A filesystem: association list from slash-separated paths to file
contents.  First match wins on lookup; well-formed filesystems have unique
paths. -/
abbrev FS := List (String × Bytes)

/-- `ioutil.ReadFile` as lookup: `none` when no regular file is at `p`. -/
def fsRead (fs : FS) (p : String) : Option Bytes :=
  (fs.find? (fun e => e.1 = p)).map (·.2)

/-- Whether a regular file exists at `p`. -/
def isFile (fs : FS) (p : String) : Bool :=
  fs.any (fun e => e.1 = p)

/-- Whether a directory exists at `p` (some file lies strictly below it). -/
def isDir (fs : FS) (p : String) : Bool :=
  fs.any (fun e => strIsPrefixOf (p ++ "/") e.1)

/-- `fs.PathExists` / `os.Stat` success: a file or directory is at `p`. -/
def pathExists (fs : FS) (p : String) : Bool :=
  isFile fs p || isDir fs p

/-- `fs.SaveFile` (write-temp-and-rename): replace or create the file. -/
def fsWrite (fs : FS) (p : String) (content : Bytes) : FS :=
  if fs.any (fun e => e.1 = p) then
    fs.map (fun e => if e.1 = p then (p, content) else e)
  else fs ++ [(p, content)]

/-- `os.RemoveAll p`: drop the file at `p` and everything below `p/`. -/
def fsRemoveAll (fs : FS) (p : String) : FS :=
  fs.filter (fun e => ¬(e.1 = p ∨ strIsPrefixOf (p ++ "/") e.1))

/-- `filepath.Join` for the simple two-component joins the sources use. -/
def joinPath (a b : String) : String := a ++ "/" ++ b

/-- `filepath.Base`: the last slash-separated segment. -/
def baseName (p : String) : String :=
  match (goSplit p '/').reverse with
  | [] => p
  | b :: _ => b

/-- `relativePath outer inner` (src/irmaconfig.go): strip `outer ++ "/"`,
failing when `outer` is not a prefix of `inner`.  `filepath.Abs` is the
identity on the already-rooted paths this model uses. -/
def relativePath (outer inner : String) : Except GoErr String :=
  if strIsPrefixOf outer inner then .ok (strDrop inner (strLen outer + 1))
  else .error (.msg "inner path is not contained in outer path")

/-- The direct children of directory `p`: the distinct first segments of the
paths under `p ++ "/"`, in sorted order (as `filepath.Glob (p ++ "/*")`
returns them). -/
def childNames (fs : FS) (p : String) : List String :=
  sortStrings ((fs.filterMap (fun e =>
    if strIsPrefixOf (p ++ "/") e.1 then
      match goSplit (strDrop e.1 (strLen p + 1)) '/' with
      | [] => none
      | seg :: _ => some seg
    else none)).dedup)

/-- All paths visited by `filepath.Walk root` in our model: the root, plus
every file and every (implicit) directory below it, sorted.  `filepath.Walk`
visits in lexical depth-first order; only the multiset of visited paths
matters to the embedded code (it accumulates warnings). -/
def walkPaths (fs : FS) (root : String) : List String :=
  root :: sortStrings ((fs.filterMap (fun e =>
      if strIsPrefixOf (root ++ "/") e.1 then some e.1 else none) ++
    (fs.filterMap (fun e =>
      if strIsPrefixOf (root ++ "/") e.1 then
        some (prefixesOf e.1)
      else none)).flatten).dedup)
where
  /-- The proper ancestor directories of a path that lie strictly below the
  walk root: for `a/b/c/d` under root `a`, the dirs `a/b` and `a/b/c`. -/
  prefixesOf (p : String) : List String :=
    let segs := goSplit p '/'
    (List.range segs.length).filterMap (fun n =>
      if n < segs.length ∧ 1 ≤ n then
        let pre := String.intercalate "/" (segs.take (n + 1))
        if strIsPrefixOf (root ++ "/") pre ∧ pre ≠ p then some pre else none
      else none)

/-! ### External library abstractions -/

/-- A public key as returned by `x509.ParsePKIXPublicKey`: either an ECDSA
key (identified abstractly by a number) or a key of some other type. -/
inductive PubKey where
  | ecdsa (k : Nat)
  | other
  deriving DecidableEq, Repr

/-- One `TranslatedString` field of a descriptor: the Go struct field name
and the set of languages it carries (what `checkTranslations` inspects by
reflection). -/
structure TransField where
  fieldName : String
  langs : List String
  deriving DecidableEq, Repr

/-- The fields of a scheme manager `description.xml` that the embedded code
reads. -/
structure SchemeManagerDesc where
  XMLVersion : Int
  ID : String
  URL : String
  KeyshareServer : String
  translations : List TransField
  deriving DecidableEq, Repr

/-- The fields of an issuer `description.xml` that the embedded code
reads. -/
structure IssuerDesc where
  XMLVersion : Int
  ID : String
  SchemeManagerID : String
  Valid : Bool := false
  translations : List TransField
  deriving DecidableEq, Repr

/-- An `<Attribute>` of a credential type description. -/
structure AttrDesc where
  ID : String
  DisplayIndex : Option Nat
  IsOpt : Bool
  translations : List TransField
  Index : Nat := 0
  SchemeManagerID : String := ""
  IssuerID : String := ""
  CredentialTypeID : String := ""
  deriving DecidableEq, Repr

/-- The fields of a credential type `description.xml` that the embedded
code reads. -/
structure CredDesc where
  XMLVersion : Int
  ID : String
  IssuerID : String
  SchemeManagerID : String
  AttributeTypes : List AttrDesc
  Valid : Bool := false
  translations : List TransField
  deriving DecidableEq, Repr

/-- The Go standard-library / external-package functions the configuration
code calls, abstracted as parameters.  Theorems quantify over an arbitrary
`GoExt`, and concrete instances instantiate it. -/
structure GoExt where
  /-- `sha256.Sum256`. -/
  sha256 : Bytes → Bytes
  /-- `pem.Decode`: the bytes of the first PEM block, or `none` when no
  block is found (Go then returns a nil pointer). -/
  pemDecode : Bytes → Option Bytes
  /-- `x509.ParsePKIXPublicKey`. -/
  x509ParsePKIX : Bytes → Except GoErr PubKey
  /-- `asn1.Unmarshal` into `[]*big.Int`: the resulting slice.  The source
  ignores the error; on failure the slice stays empty. -/
  asn1TwoInts : Bytes → List Int
  /-- `ecdsa.Verify pk hash r s`. -/
  ecdsaVerify : Nat → Bytes → Int → Int → Bool
  /-- `xml.Unmarshal` into a `SchemeManager`. -/
  xmlScheme : Bytes → Except GoErr SchemeManagerDesc
  /-- `xml.Unmarshal` into an `Issuer`. -/
  xmlIssuer : Bytes → Except GoErr IssuerDesc
  /-- `xml.Unmarshal` into a `CredentialType`. -/
  xmlCred : Bytes → Except GoErr CredDesc
  /-- `base64.StdEncoding.EncodeToString`. -/
  base64Std : Bytes → String
  /-- HTTP GET: base URL and remote name to response body
  (`HTTPTransport.GetBytes` / the fetch underlying `GetFile`). -/
  http : String → String → Except GoErr Bytes

/-! ### Scheme managers and the configuration state -/

/-- The `SchemeManager` fields the embedded code uses.  `Timestamp` is
seconds since the epoch. -/
structure SchemeManager where
  ID : String
  URL : String
  Status : SchemeManagerStatus
  Valid : Bool
  Timestamp : Nat
  index : SchemeManagerIndex
  XMLVersion : Int
  KeyshareServer : String
  translations : List TransField
  deriving DecidableEq, Repr

/-- `NewSchemeManager name`. -/
def NewSchemeManager (name : String) : SchemeManager :=
  { ID := name, URL := "", Status := .unprocessed, Valid := false,
    Timestamp := 0, index := [], XMLVersion := 0, KeyshareServer := "",
    translations := [] }

/-- The mutable `Configuration` state the claims touch: the lookup maps
(as association lists), warnings, the read-only flag and the filesystem. -/
structure ConfState where
  Path : String
  SchemeManagers : List (String × SchemeManager)
  Issuers : List (String × IssuerDesc)
  CredentialTypes : List (String × CredDesc)
  AttributeTypes : List (String × AttrDesc)
  DisabledSchemeManagers : List (String × GoErr)
  publicKeysKeys : List String
  reverseHashes : List (String × String)
  Warnings : List String
  readOnly : Bool
  fs : FS
  deriving DecidableEq, Repr

/-- Update an association list at a key (Go map assignment). -/
def assocInsert {α : Type} (m : List (String × α)) (k : String) (v : α) :
    List (String × α) :=
  if m.any (fun e => e.1 = k) then
    m.map (fun e => if e.1 = k then (k, v) else e)
  else m ++ [(k, v)]

/-- Lookup in an association list (Go map read). -/
def assocLookup {α : Type} (m : List (String × α)) (k : String) : Option α :=
  (m.find? (fun e => e.1 = k)).map (·.2)

/-- Delete a key from an association list (Go `delete`). -/
def assocDelete {α : Type} (m : List (String × α)) (k : String) :
    List (String × α) :=
  m.filter (fun e => ¬ e.1 = k)

/-- `Root()` of a dotted identifier: the first segment. -/
def idRoot (s : String) : String :=
  match goSplit s '.' with
  | [] => s
  | r :: _ => r

/-! ### ReadAuthenticatedFile and signature verification -/

/-- `Configuration.ReadAuthenticatedFile` (src/irmaconfig.go:1071): look the
scheme-relative path up in the manager's index (`filepath.ToSlash` is the
identity on this host); absent from the index gives `(nil, false, nil)`; an
unreadable file gives an I/O error; a hash mismatch gives an error; else the
bytes.  The result mirrors Go's `([]byte, bool, error)` triple. -/
def ReadAuthenticatedFile (E : GoExt) (confPath : String) (fs : FS)
    (manager : SchemeManager) (path : String) :
    Option Bytes × Bool × Option GoErr :=
  match indexLookup manager.index path with
  | none => (none, false, none)
  | some signedHash =>
    match fsRead fs (joinPath confPath path) with
    | none =>
      (none, true, some (.msg ("open " ++ joinPath confPath path ++
        ": no such file or directory")))
    | some bts =>
      if E.sha256 bts = signedHash then (some bts, true, none)
      else (none, true, some (.msg ("Hash of " ++ path ++
        " does not match scheme manager index")))

/-- `ParsePemEcdsaPublicKey` (src/irmaconfig.go:1140).  When `pem.Decode`
finds no block it returns a nil pointer and the subsequent `pkblk.Bytes`
dereference panics; a non-ECDSA key is rejected with an error. -/
def ParsePemEcdsaPublicKey (E : GoExt) (pkbts : Bytes) : Res Nat :=
  match E.pemDecode pkbts with
  | none => .panicked "runtime error: invalid memory address or nil pointer dereference"
  | some blockBytes =>
    match E.x509ParsePKIX blockBytes with
    | .error e => .err e
    | .ok (.ecdsa k) => .ok k
    | .ok .other => .err (.msg "Invalid scheme manager public key")

/-- The body of `Configuration.VerifySignature` (src/irmaconfig.go:1092),
before the deferred `recover`: assert the three files exist, hash the raw
index bytes, parse the public key (which may panic), unmarshal the
signature ints ignoring the error (so `ints[0]`/`ints[1]` panic when fewer
than two came back), and verify. -/
def VerifySignatureBody (E : GoExt) (confPath : String) (fs : FS)
    (id : String) : Res Unit :=
  let dir := joinPath confPath id
  if ¬(pathExists fs (dir ++ "/index") ∧ pathExists fs (dir ++ "/index.sig") ∧
      pathExists fs (dir ++ "/pk.pem")) then
    .err (.msg "Missing scheme manager index file, signature, or public key")
  else
    match fsRead fs (dir ++ "/index") with
    | none => .err (.msg ("open " ++ dir ++ "/index: no such file or directory"))
    | some indexbts =>
      let indexhash := E.sha256 indexbts
      match fsRead fs (dir ++ "/pk.pem") with
      | none => .err (.msg ("open " ++ dir ++ "/pk.pem: no such file or directory"))
      | some pkbts =>
        match ParsePemEcdsaPublicKey E pkbts with
        | .err e => .err e
        | .panicked m => .panicked m
        | .ok pk =>
          match fsRead fs (dir ++ "/index.sig") with
          | none => .err (.msg ("open " ++ dir ++ "/index.sig: no such file or directory"))
          | some sig =>
            match E.asn1TwoInts sig with
            | r :: s :: _ =>
              if E.ecdsaVerify pk indexhash r s then .ok ()
              else .err (.msg "Scheme manager signature was invalid")
            | _ => .panicked "runtime error: index out of range"

/-- `Configuration.VerifySignature`: the body wrapped in the deferred
`recover` that converts any panic into a verification error. -/
def VerifySignature (E : GoExt) (confPath : String) (fs : FS)
    (id : String) : Res Unit :=
  match VerifySignatureBody E confPath fs id with
  | .panicked m =>
    .err (.msg ("Scheme manager index signature failed to verify: " ++ m))
  | r => r

/-- The loop of `Configuration.VerifySchemeManager` over the files of the
index: a file absent from disk is skipped (`continue`); a present file must
pass `ReadAuthenticatedFile`. -/
def verifySchemeManagerFiles (E : GoExt) (confPath : String) (fs : FS)
    (manager : SchemeManager) : List (String × Bytes) → Res Unit
  | [] => .ok ()
  | (file, _) :: rest =>
    if ¬ pathExists fs (joinPath confPath file) then
      verifySchemeManagerFiles E confPath fs manager rest
    else
      match ReadAuthenticatedFile E confPath fs manager file with
      | (_, _, some e) => .err e
      | (_, _, none) => verifySchemeManagerFiles E confPath fs manager rest

/-- `Configuration.VerifySchemeManager` (src/irmaconfig.go:1044). -/
def VerifySchemeManager (E : GoExt) (confPath : String) (fs : FS)
    (manager : SchemeManager) : Res Unit :=
  match VerifySignature E confPath fs manager.ID with
  | .ok _ => verifySchemeManagerFiles E confPath fs manager manager.index
  | r => r.bind (fun _ => .ok ())

/-! ### The signature-exception allowlist and unsigned-file warnings -/

/-- The `sigExceptions` regexps (src/irmaconfig.go:1030), each rendered as
the predicate it decides on a relative path (Go's `MatchString` finds an
unanchored match unless the pattern is anchored). -/
def sigExceptionMatch (relpath : String) : Bool :=
  strContains relpath "/.git" ||                       -- `/.git(/.*)?`
  strEndsWith relpath "/pk.pem" ||                     -- `^.*?/pk\.pem$`
  strEndsWith relpath "/sk.pem" ||                     -- `^.*?/sk\.pem$`
  strContains relpath "/index" ||                      -- `^.*?/index`
  strContains relpath "/index.sig" ||                  -- `^.*?/index\.sig`
  strEndsWith relpath "/AUTHORS" ||                    -- `^.*?/AUTHORS$`
  strEndsWith relpath "/LICENSE" ||                    -- `^.*?/LICENSE$`
  strEndsWith relpath "/README.md" ||                  -- `^.*?/README\.md$`
  (strEndsWith relpath "/PrivateKeys" &&               -- `^.*?/.*?/PrivateKeys$`
    2 ≤ relpath.data.count '/') ||
  privateKeyXml relpath ||                             -- `^.*?/.*?/PrivateKeys/\d+.xml$`
  strEndsWith relpath ".DS_Store"                      -- `\.DS_Store$`
where
  privateKeyXml (p : String) : Bool :=
    match (goSplit p '/').reverse with
    | last :: dir :: _ :: _ :: _ =>
      dir = "PrivateKeys" &&
        (match last.data.reverse with
         | 'l' :: 'm' :: 'x' :: _ :: ds =>
           ¬ ds.isEmpty && ds.all (fun c => '0' ≤ c && c ≤ '9')
         | _ => false)
    | _ => false

/-- `dirInScheme` (src/irmaconfig.go:1020). -/
def dirInScheme (index : SchemeManagerIndex) (dir : String) : Bool :=
  index.any (fun e => strIsPrefixOf dir e.1)

/-- The walk body of `Configuration.checkUnsignedFiles`
(src/irmaconfig.go:994): for each visited path, skip allowlisted relative
paths, warn about directories not in the scheme and files not in the
index. -/
def checkUnsignedFiles (confPath : String) (fs : FS) (name : String)
    (index : SchemeManagerIndex) : Except GoErr (List String) :=
  go (walkPaths fs (joinPath confPath name))
where
  go : List String → Except GoErr (List String)
  | [] => .ok []
  | p :: rest =>
    match relativePath confPath p with
    | .error e => .error e
    | .ok relpath =>
      if sigExceptionMatch relpath then go rest
      else
        match go rest with
        | .error e => .error e
        | .ok ws =>
          if isDir fs p then
            if ¬ dirInScheme index relpath then
              .ok (("Ignored dir: " ++ relpath) :: ws)
            else .ok ws
          else if (indexLookup index relpath).isNone then
            .ok (("Ignored file: " ++ relpath) :: ws)
          else .ok ws

/-- `Configuration.parseIndex` (src/irmaconfig.go:977): read and parse the
scheme's `index` file, then collect unsigned-file warnings. -/
def parseIndex (confPath : String) (fs : FS) (name : String) :
    Res (SchemeManagerIndex × List String) :=
  let path := joinPath confPath (name ++ "/index")
  if ¬ pathExists fs path then
    .err (.msg ("Missing scheme manager index file; tried " ++ path))
  else
    match fsRead fs path with
    | none => .err (.msg ("open " ++ path ++ ": no such file or directory"))
    | some indexbts =>
      match SchemeManagerIndex.FromString (String.mk (indexbts.map Char.ofNat)) with
      | .error e => .err e
      | .ok index =>
        match checkUnsignedFiles confPath fs name index with
        | .error e => .err e
        | .ok warnings => .ok (index, warnings)

/-! ### Descriptor parsing and consistency checks -/

/-- The bytes of a string (ASCII). -/
def stringBytes (s : String) : Bytes := s.data.map Char.toNat

def stripTrailingSlash (p : String) : String :=
  if strEndsWith p "/" then strTake p (strLen p - 1) else p

/-- The subdirectories visited by `iterateSubfolders`
(src/irmaconfig.go:603): the directory children of `path` in sorted order,
excluding `.git`.  `filepath.Glob`'s `Join` cleans a trailing slash in the
pattern. -/
def subfolders (fs : FS) (path : String) : List String :=
  let norm := stripTrailingSlash path
  ((childNames fs norm).map (fun seg => norm ++ "/" ++ seg)).filter
    (fun d => isDir fs d && ¬ strEndsWith d "/.git")

/-- Position of the first occurrence of `c`, as `strings.Index`. -/
def idxOfChar (c : Char) (l : List Char) : Option Nat :=
  match l with
  | [] => none
  | x :: rest =>
    if x = c then some 0 else (idxOfChar c rest).map (· + 1)

/-- `Configuration.checkTranslations` (src/irmaconfig.go:1388): for every
`TranslatedString` field, warn about each missing `en`/`nl` translation. -/
def checkTranslations (file : String) (fields : List TransField) : List String :=
  (fields.map (fun f =>
    (["en", "nl"].filterMap (fun lang =>
      if lang ∈ f.langs then none
      else some (file ++ " misses " ++ lang ++ " translation in <" ++
        f.fieldName ++ "> tag"))))).flatten

/-- `Configuration.pathToDescription` (src/irmaconfig.go:629), generic over
the descriptor parser: `ok none` when the file does not exist; for a file
absent from the index, an error naming the expected folder (which panics via
`p[0:strings.Index(p, "/")]` when the sampled index path has no slash);
otherwise the authenticated read and the XML parse. -/
def pathToDescription {α : Type} (E : GoExt) (confPath : String) (fs : FS)
    (manager : SchemeManager) (path : String)
    (parse : Bytes → Except GoErr α) : Res (Option α) :=
  if ¬ pathExists fs path then .ok none
  else
    match relativePath confPath path with
    | .error e => .err e
    | .ok relativepath =>
      match ReadAuthenticatedFile E confPath fs manager relativepath with
      | (bts, found, rerr) =>
        if ¬ found then
          match manager.index with
          | [] => .err (.msg "")
          | (p, _) :: _ =>
            match idxOfChar '/' p.data with
            | some i =>
              .err (.msg ("Folder must be called " ++ strTake p i ++ ", not " ++
                manager.ID))
            | none => .panicked "runtime error: slice bounds out of range"
        else
          match rerr with
          | some e => .err e
          | none =>
            match parse (bts.getD []) with
            | .error e => .err e
            | .ok a => .ok (some a)

/-- `Configuration.checkScheme` (src/irmaconfig.go:1367): version and
directory-name checks (each marking `ParsingError`), the keyshare public
key requirement, then translation warnings. -/
def checkScheme (fs : FS) (scheme : SchemeManager) (dir : String) :
    SchemeManager × List String × Option GoErr :=
  if scheme.XMLVersion < 7 then
    ({ scheme with Status := .parsingError }, [],
      some (.msg "Unsupported scheme manager description"))
  else if ¬ (baseName dir = scheme.ID) then
    ({ scheme with Status := .parsingError }, [],
      some (.msg ("Scheme " ++ scheme.ID ++ " has wrong directory name " ++
        baseName dir)))
  else if scheme.KeyshareServer ≠ "" ∧ ¬ pathExists fs (joinPath dir "kss-0.pem") then
    ({ scheme with Status := .parsingError }, [],
      some (.msg ("Scheme " ++ scheme.ID ++
        " has keyshare URL but no keyshare public key kss-0.pem")))
  else
    (scheme, checkTranslations ("Scheme " ++ scheme.ID) scheme.translations, none)

/-- Whether `filepath.Glob (dirPre ++ "*.xml")` matches `full`: `*` matches
a possibly empty run of non-separator characters. -/
def matchStarXml (dirPre full : String) : Bool :=
  strIsPrefixOf dirPre full &&
    (let rest := strDrop full (strLen dirPre)
     ¬ strContains rest "/" && strEndsWith rest ".xml")

/-- Whether the issuer has any public key files
(`pubkeyPattern` glob in `checkIssuer`). -/
def globHasPubkeys (fs : FS) (confPath scheme issuer : String) : Bool :=
  fs.any (fun f =>
    matchStarXml (confPath ++ "/" ++ scheme ++ "/" ++ issuer ++ "/PublicKeys/") f.1)

/-- `Configuration.checkIssuer` (src/irmaconfig.go:1297): translation and
missing-public-key warnings, then directory-name and scheme-id checks, then
a missing-logo warning. -/
def checkIssuer (fs : FS) (confPath : String) (manager : SchemeManager)
    (issuer : IssuerDesc) (dir : String) : List String × Option GoErr :=
  let issuerid := issuer.SchemeManagerID ++ "." ++ issuer.ID
  let w1 := checkTranslations ("Issuer " ++ issuerid) issuer.translations
  let w2 := w1 ++
    (if ¬ globHasPubkeys fs confPath issuer.SchemeManagerID issuer.ID then
      ["Issuer " ++ issuerid ++ " has no public keys"] else [])
  if ¬ (baseName dir = issuer.ID) then
    (w2, some (.msg ("Issuer " ++ issuerid ++ " has wrong directory name " ++
      baseName dir)))
  else if ¬ (manager.ID = issuer.SchemeManagerID) then
    (w2, some (.msg ("Issuer " ++ issuerid ++ " has wrong SchemeManager " ++
      issuer.SchemeManagerID)))
  else
    (w2 ++
      (if ¬ pathExists fs (dir ++ "/logo.png") then
        ["Issuer " ++ issuerid ++ " has no logo.png"] else []), none)

/-- `Configuration.checkAttributes` (src/irmaconfig.go:1343). -/
def checkAttributes (cred : CredDesc) : List String × Option GoErr :=
  let name := cred.SchemeManagerID ++ "." ++ cred.IssuerID ++ "." ++ cred.ID
  let count := cred.AttributeTypes.length
  if count = 0 then
    ([], some (.msg ("Credenial type " ++ name ++ " has no attributes")))
  else
    let perAttr := ((cred.AttributeTypes.zip (List.range count)).map (fun (attr, i) =>
      checkTranslations ("Attribute " ++ attr.ID ++ " of credential type " ++ name)
        attr.translations ++
      (if count ≤ attr.DisplayIndex.getD i then
        ["Credential type " ++ name ++
          " has invalid attribute displayIndex at attribute " ++ toString i]
      else []))).flatten
    let indices : List Nat := ((cred.AttributeTypes.zip (List.range count)).map
      (fun (attr, i) => attr.DisplayIndex.getD i)).dedup
    (perAttr ++
      (if ¬ (indices.length = count) then
        ["Credential type " ++ name ++
          " has invalid attribute ordering, check the displayIndex tags"]
      else []), none)

/-- `Configuration.checkCredentialType` (src/irmaconfig.go:1322). -/
def checkCredentialType (fs : FS) (manager : SchemeManager)
    (issuer : IssuerDesc) (cred : CredDesc) (dir : String) :
    List String × Option GoErr :=
  let credid := cred.SchemeManagerID ++ "." ++ cred.IssuerID ++ "." ++ cred.ID
  let w1 := checkTranslations ("Credential type " ++ credid) cred.translations
  if cred.XMLVersion < 4 then
    (w1, some (.msg "Unsupported credential type description"))
  else if ¬ (cred.ID = baseName dir) then
    (w1, some (.msg ("Credential type " ++ credid ++
      " has wrong directory name " ++ baseName dir)))
  else if ¬ (cred.IssuerID = issuer.ID) then
    (w1, some (.msg ("Credential type " ++ credid ++ " has wrong IssuerID " ++
      cred.IssuerID)))
  else if ¬ (cred.SchemeManagerID = manager.ID) then
    (w1, some (.msg ("Credential type " ++ credid ++
      " has wrong SchemeManager " ++ cred.SchemeManagerID)))
  else
    let w2 := w1 ++
      (if ¬ pathExists fs (dir ++ "/logo.png") then
        ["Credential type " ++ credid ++ " has no logo.png"] else [])
    let (w3, e) := checkAttributes cred
    (w2 ++ w3, e)

/-! ### Issuer and credential folder parsing -/

/-- Modelled from the spec: `parseTimestamp` lives in the repository's
timestamp code, which is not among the given sources.  Per §6 of the spec
the `timestamp` file is "ASCII decimal seconds since the Unix epoch,
optional trailing newline". -/
def parseTimestamp (bts : Bytes) : Except GoErr Nat :=
  let chars := (bts.map Char.ofNat).reverse.dropWhile
    (fun c => c = '\n' ∨ c = '\r' ∨ c = ' ' ∨ c = '\t') |>.reverse
  match digitsVal chars none with
  | some n => .ok n
  | none => .error (.msg "Could not parse timestamp")

/-- Modelled from the spec: `readTimestamp` (repository code outside the
given sources) reads and parses a timestamp file, returning Go's
`(*Timestamp, bool, error)` triple: `(nil, false, nil)` when the file does
not exist. -/
def readTimestamp (fs : FS) (p : String) : Option Nat × Bool × Option GoErr :=
  match fsRead fs p with
  | none => (none, false, none)
  | some bts =>
    match parseTimestamp bts with
    | .error e => (none, true, some e)
    | .ok n => (some n, true, none)

/-- The body run for one credential-type subfolder by
`Configuration.parseCredentialsFolder` (src/irmaconfig.go:566).  Returns
the updated state, whether this folder contributed a credential type, and
the Go result. -/
def credHandler (E : GoExt) (manager : SchemeManager) (issuer : IssuerDesc)
    (conf : ConfState) (dir : String) : ConfState × Bool × Res Unit :=
  match pathToDescription E conf.Path conf.fs manager (dir ++ "/description.xml")
      E.xmlCred with
  | .err e => (conf, false, .err e)
  | .panicked m => (conf, false, .panicked m)
  | .ok none => (conf, false, .ok ())
  | .ok (some cred) =>
    match checkCredentialType conf.fs manager issuer cred dir with
    | (w, some e) =>
      ({ conf with Warnings := conf.Warnings ++ w }, false, .err e)
    | (w, none) =>
      let credid := cred.SchemeManagerID ++ "." ++ cred.IssuerID ++ "." ++ cred.ID
      let attrs := (cred.AttributeTypes.zip
        (List.range cred.AttributeTypes.length)).map (fun (attr, i) =>
          { attr with
            Index := i,
            SchemeManagerID := cred.SchemeManagerID,
            IssuerID := cred.IssuerID,
            CredentialTypeID := cred.ID })
      let cred' := { cred with Valid := manager.Valid, AttributeTypes := attrs }
      let conf' :=
        { conf with
          Warnings := conf.Warnings ++ w,
          CredentialTypes := assocInsert conf.CredentialTypes credid cred',
          reverseHashes := assocInsert conf.reverseHashes
            (E.base64Std ((E.sha256 (stringBytes credid)).take 16)) credid,
          AttributeTypes := attrs.foldl (fun m attr =>
            assocInsert m (credid ++ "." ++ attr.ID) attr) conf.AttributeTypes }
      (conf', true, .ok ())

/-- The loop of `parseCredentialsFolder` over the `Issues/*` subfolders. -/
def credLoop (E : GoExt) (manager : SchemeManager) (issuer : IssuerDesc) :
    List String → ConfState → Bool → ConfState × Bool × Res Unit
  | [], conf, found => (conf, found, .ok ())
  | d :: rest, conf, found =>
    match credHandler E manager issuer conf d with
    | (conf', f, .ok _) => credLoop E manager issuer rest conf' (found || f)
    | (conf', f, r) => (conf', found || f, r)

/-- `Configuration.parseCredentialsFolder`: iterate the subfolders of
`<issuer>/Issues/`; warn when no credential type was found (the warning is
recorded even when the loop errored, as in the source). -/
def parseCredentialsFolder (E : GoExt) (manager : SchemeManager)
    (issuer : IssuerDesc) (conf : ConfState) (path : String) :
    ConfState × Res Unit :=
  match credLoop E manager issuer (subfolders conf.fs path) conf false with
  | (conf', found, r) =>
    (if ¬ found then
      { conf' with Warnings := conf'.Warnings ++
        ["Issuer " ++ (issuer.SchemeManagerID ++ "." ++ issuer.ID) ++
          " has no credential types"] }
    else conf', r)

/-- The body run for one issuer subfolder by
`Configuration.parseIssuerFolders` (src/irmaconfig.go:455). -/
def issuerHandler (E : GoExt) (manager : SchemeManager) (conf : ConfState)
    (dir : String) : ConfState × Res Unit :=
  match pathToDescription E conf.Path conf.fs manager (dir ++ "/description.xml")
      E.xmlIssuer with
  | .err e => (conf, .err e)
  | .panicked m => (conf, .panicked m)
  | .ok none => (conf, .ok ())
  | .ok (some issuer) =>
    if issuer.XMLVersion < 4 then
      (conf, .err (.msg "Unsupported issuer description"))
    else
      match checkIssuer conf.fs conf.Path manager issuer dir with
      | (w, some e) =>
        ({ conf with Warnings := conf.Warnings ++ w }, .err e)
      | (w, none) =>
        let issuerid := issuer.SchemeManagerID ++ "." ++ issuer.ID
        let issuer' := { issuer with Valid := manager.Valid }
        let conf' :=
          { conf with
            Warnings := conf.Warnings ++ w,
            Issuers := assocInsert conf.Issuers issuerid issuer' }
        parseCredentialsFolder E manager issuer' conf' (dir ++ "/Issues/")

/-- The loop of `parseIssuerFolders` over the scheme's subfolders. -/
def issuerLoop (E : GoExt) (manager : SchemeManager) :
    List String → ConfState → ConfState × Res Unit
  | [], conf => (conf, .ok ())
  | d :: rest, conf =>
    match issuerHandler E manager conf d with
    | (conf', .ok _) => issuerLoop E manager rest conf'
    | (conf', r) => (conf', r)

/-- `Configuration.parseIssuerFolders`. -/
def parseIssuerFolders (E : GoExt) (manager : SchemeManager)
    (conf : ConfState) (path : String) : ConfState × Res Unit :=
  issuerLoop E manager (subfolders conf.fs path) conf

/-! ### ParseSchemeManagerFolder -/

/-- Copy the fields `xml.Unmarshal` fills into the manager. -/
def applyDesc (m : SchemeManager) (d : SchemeManagerDesc) : SchemeManager :=
  { m with
    XMLVersion := d.XMLVersion,
    ID := d.ID,
    URL := d.URL,
    KeyshareServer := d.KeyshareServer,
    translations := d.translations }

/-- Store the (pointer-shared) manager back into the configuration's map,
as `conf.SchemeManagers[manager.Identifier()] = manager` does. -/
def smfStore (conf : ConfState) (m : SchemeManager) : ConfState :=
  { conf with SchemeManagers := assocInsert conf.SchemeManagers m.ID m }

/-- The deferred error wrapper of `ParseSchemeManagerFolder`: keep the
manager in the map and wrap the cause with the manager's current status. -/
def smfFail (conf : ConfState) (m : SchemeManager) (e : GoErr) :
    ConfState × Res SchemeManager :=
  (smfStore conf m, Res.err (.sme m.ID m.Status e))

/-- `Configuration.ParseSchemeManagerFolder` (src/irmaconfig.go:243).  The
manager (a pointer in Go, stored in `conf.SchemeManagers` up front) is
threaded explicitly and written back in every outcome; errors are wrapped
into a `SchemeManagerError` carrying the manager's status, as the deferred
function does. -/
def ParseSchemeManagerFolder (E : GoExt) (conf : ConfState) (dir : String)
    (manager0 : SchemeManager) : ConfState × Res SchemeManager :=
  let store := smfStore
  let fail := smfFail
  match VerifySignature E conf.Path conf.fs manager0.ID with
  | .err e => fail conf manager0 e
  | .panicked m => (store conf manager0, .panicked m)
  | .ok _ =>
  match parseIndex conf.Path conf.fs (baseName dir) with
  | .err e => fail conf { manager0 with Status := .invalidIndex } e
  | .panicked m => (store conf manager0, .panicked m)
  | .ok (index, ws) =>
  let conf1 := { conf with Warnings := conf.Warnings ++ ws }
  let manager1 := { manager0 with index := index }
  match pathToDescription E conf1.Path conf1.fs manager1
      (dir ++ "/description.xml") E.xmlScheme with
  | .err e => fail conf1 { manager1 with Status := .parsingError } e
  | .panicked m => (store conf1 manager1, .panicked m)
  | .ok none =>
    fail conf1 { manager1 with Status := .parsingError }
      (.msg "Scheme manager description not found")
  | .ok (some desc) =>
  let manager2 := applyDesc manager1 desc
  match checkScheme conf1.fs manager2 dir with
  | (manager3, _, some e) => fail conf1 manager3 e
  | (manager3, ws2, none) =>
  let conf2 := { conf1 with Warnings := conf1.Warnings ++ ws2 }
  match VerifySchemeManager E conf2.Path conf2.fs manager3 with
  | .err e => fail conf2 { manager3 with Status := .invalidSignature } e
  | .panicked m => (store conf2 manager3, .panicked m)
  | .ok _ =>
  match readTimestamp conf2.fs (dir ++ "/timestamp") with
  | (some ts, true, none) =>
    let manager4 := { manager3 with Timestamp := ts }
    (match parseIssuerFolders E manager4 conf2 dir with
     | (conf3, .err e) =>
       fail conf3 { manager4 with Status := .contentParsingError } e
     | (conf3, .panicked m) => (store conf3 manager4, .panicked m)
     | (conf3, .ok _) =>
       let manager5 := { manager4 with Status := .valid, Valid := true }
       (store conf3 manager5, .ok manager5))
  | _ =>
    fail conf2 manager3 (.msg "Could not read scheme manager timestamp")

/-! ### The mutating configuration operations -/

/-- Insert into a list used as a set (Go `map[...]struct{}`). -/
def setInsert (l : List String) (x : String) : List String :=
  if x ∈ l then l else l ++ [x]

/-- `IrmaIdentifierSet` (the `downloaded` out-parameter of
`UpdateSchemeManager`). -/
structure IrmaIdentifierSet where
  SchemeManagers : List String
  Issuers : List String
  CredentialTypes : List String
  deriving DecidableEq, Repr

/-- Modelled from the spec: `HTTPTransport.GetBytes` (the transport lives in
repository code outside the given sources; §6: "Remote mirror protocol: HTTP
GET of each file under the scheme URL"). -/
def transportGetBytes (E : GoExt) (base name : String) : Except GoErr Bytes :=
  E.http base name

/-- Modelled from the spec: `HTTPTransport.GetFile` fetches a remote file
and saves it at `dest` (via the write-temp-and-rename `fs.SaveFile`).
Returns the updated filesystem. -/
def transportGetFile (E : GoExt) (fs : FS) (base name dest : String) :
    Except GoErr FS :=
  match E.http base name with
  | .error e => .error e
  | .ok content => .ok (fsWrite fs dest content)

/-- Modelled from the spec: `HTTPTransport.GetSignedFile` fetches a remote
file, verifies its SHA-256 against the signed index hash before committing
(§4.5: "fetch-with-hash-check"), and saves it at `dest`. -/
def transportGetSignedFile (E : GoExt) (fs : FS) (base name dest : String)
    (hash : Bytes) : Except GoErr FS :=
  match E.http base name with
  | .error e => .error e
  | .ok content =>
    if E.sha256 content = hash then .ok (fsWrite fs dest content)
    else .error (.msg ("Hash of downloaded file " ++ name ++
      " does not match signed index"))

/-- `DownloadSchemeManager` (src/irmaconfig.go:700): normalize the URL,
fetch and parse `description.xml`, and keep the normalized URL. -/
def DownloadSchemeManager (E : GoExt) (url0 : String) : Res SchemeManager :=
  let url1 :=
    if ¬ strIsPrefixOf "http://" url0 ∧ ¬ strIsPrefixOf "https://" url0 then
      "https://" ++ url0
    else url0
  if url1 = "" then .panicked "runtime error: index out of range" else
  let url2 := if strEndsWith url1 "/" then strTake url1 (strLen url1 - 1) else url1
  let url3 :=
    if strEndsWith url2 "/description.xml" then
      strTake url2 (strLen url2 - strLen "/description.xml")
    else url2
  match transportGetBytes E url3 "description.xml" with
  | .error e => .err e
  | .ok b =>
    match E.xmlScheme b with
    | .error e => .err e
    | .ok desc => .ok { applyDesc (NewSchemeManager "") desc with URL := url3 }

/-- `Configuration.DeleteSchemeManager` (src/irmaconfig.go:479): always
remove the manager and everything under it from the in-memory maps; remove
the storage only when the configuration is writable. -/
def DeleteSchemeManager (conf : ConfState) (id : String) :
    ConfState × Option GoErr :=
  let conf' :=
    { conf with
      SchemeManagers := assocDelete conf.SchemeManagers id,
      DisabledSchemeManagers := assocDelete conf.DisabledSchemeManagers id,
      Issuers := conf.Issuers.filter (fun e => ¬ idRoot e.1 = id),
      publicKeysKeys := conf.publicKeysKeys.filter (fun k => ¬ idRoot k = id),
      CredentialTypes := conf.CredentialTypes.filter (fun e => ¬ idRoot e.1 = id) }
  if ¬ conf.readOnly then
    ({ conf' with fs := fsRemoveAll conf'.fs (joinPath conf.Path id) }, none)
  else (conf', none)

/-- `Configuration.RemoveSchemeManager` (src/irmaconfig.go:725): remove the
manager's credential types, issuers, public keys and the manager itself from
the in-memory maps — with no read-only check — and remove the storage when
`fromStorage` is set or the configuration is writable. -/
def RemoveSchemeManager (conf : ConfState) (id : String) (fromStorage : Bool) :
    ConfState × Option GoErr :=
  let conf' :=
    { conf with
      CredentialTypes := conf.CredentialTypes.filter (fun e => ¬ idRoot e.1 = id),
      Issuers := conf.Issuers.filter (fun e => ¬ idRoot e.1 = id),
      publicKeysKeys := conf.publicKeysKeys.filter (fun k => ¬ idRoot k = id),
      SchemeManagers := assocDelete conf.SchemeManagers id }
  if fromStorage || ¬ conf.readOnly then
    ({ conf' with fs := fsRemoveAll conf'.fs (joinPath conf.Path id) }, none)
  else (conf', none)

/-- `Configuration.DownloadSchemeManagerSignature` (src/irmaconfig.go:807):
refuse on a read-only configuration, else fetch `index` and `index.sig`
into the scheme directory and verify the signature. -/
def DownloadSchemeManagerSignature (E : GoExt) (conf : ConfState)
    (manager : SchemeManager) : ConfState × Option GoErr :=
  if conf.readOnly then
    (conf, some (.msg "cannot download into a read-only configuration"))
  else
    let path := conf.Path ++ "/" ++ manager.ID
    match transportGetFile E conf.fs manager.URL "index" (joinPath path "index") with
    | .error e => (conf, some e)
    | .ok fs1 =>
      match transportGetFile E fs1 manager.URL "index.sig"
          (joinPath path "index.sig") with
      | .error e => ({ conf with fs := fs1 }, some e)
      | .ok fs2 =>
        let conf' := { conf with fs := fs2 }
        match VerifySignature E conf'.Path conf'.fs manager.ID with
        | .ok _ => (conf', none)
        | .err e => (conf', some e)
        | .panicked m => (conf', some (.msg m))

/-- The `issPattern` submatch `(.+)/(.+)/description\.xml` on an
index-shaped path (greedy groups; matched against the whole filename, the
form the update loop feeds it). -/
def issSubmatch (filename : String) : Option (String × String) :=
  if strEndsWith filename "/description.xml" then
    let base := strTake filename (strLen filename - strLen "/description.xml")
    match (goSplit base '/').reverse with
    | g2 :: restRev =>
      if restRev.isEmpty ∨ g2 = "" then none
      else
        let g1 := String.intercalate "/" restRev.reverse
        if g1 = "" then none else some (g1, g2)
    | [] => none
  else none

/-- The `credPattern` submatch `(.+)/(.+)/Issues/(.+)/description\.xml`
(greedy groups, so the rightmost `Issues` segment splits the groups). -/
def credSubmatch (filename : String) : Option (String × String × String) :=
  if strEndsWith filename "/description.xml" then
    let base := strTake filename (strLen filename - strLen "/description.xml")
    match (goSplit base '/').reverse with
    | g3 :: issues :: g2 :: restRev =>
      if ¬ (issues = "Issues") ∨ g3 = "" ∨ g2 = "" ∨ restRev.isEmpty then none
      else
        let g1 := String.intercalate "/" restRev.reverse
        if g1 = "" then none else some (g1, g2, g3)
    | _ => none
  else none

/-- The download loop of `UpdateSchemeManager` over the entries of the new
index: skip files whose old hash is known, present and unchanged; fetch the
rest hash-checked; record issuer/credential-type description paths in the
`downloaded` set. -/
def updateFilesLoop (E : GoExt) (manager : SchemeManager) :
    List (String × Bytes) → ConfState → Option IrmaIdentifierSet →
    ConfState × Option IrmaIdentifierSet × Res Unit
  | [], conf, dl => (conf, dl, .ok ())
  | (filename, newHash) :: rest, conf, dl =>
    let path := joinPath conf.Path filename
    let oldHash := indexLookup manager.index filename
    let haveFile := pathExists conf.fs path
    if oldHash.isSome ∧ haveFile ∧ oldHash = some newHash then
      updateFilesLoop E manager rest conf dl
    else
      let stripped := strDrop filename (strLen manager.ID + 1)
      match transportGetSignedFile E conf.fs (manager.URL ++ "/") stripped path
          newHash with
      | .error e => (conf, dl, .err e)
      | .ok fs' =>
        let conf' := { conf with fs := fs' }
        match dl with
        | none => updateFilesLoop E manager rest conf' none
        | some set =>
          let set1 :=
            match issSubmatch filename with
            | some (g1, g2) =>
              { set with Issuers := setInsert set.Issuers (g1 ++ "." ++ g2) }
            | none => set
          let set2 :=
            match credSubmatch filename with
            | some (g1, g2, g3) =>
              { set1 with
                CredentialTypes := setInsert set1.CredentialTypes (g1 ++ "." ++ g2 ++ "." ++ g3) }
            | none => set1
          updateFilesLoop E manager rest conf' (some set2)

/-- `Configuration.UpdateSchemeManager` (src/irmaconfig.go:1166): refuse on
read-only; unknown managers are an error; when the remote timestamp is not
strictly newer than the stored one return immediately with no change; else
refresh index and signature, download changed files, and publish the new
index.  `parseTimestamp` and the transport are spec-modelled (their sources
are not among the given files). -/
def UpdateSchemeManager (E : GoExt) (conf : ConfState) (id : String)
    (downloaded : Option IrmaIdentifierSet) :
    ConfState × Option IrmaIdentifierSet × Res Unit :=
  if conf.readOnly then
    (conf, downloaded, .err (.msg "cannot update a read-only configuration"))
  else
    match assocLookup conf.SchemeManagers id with
    | none =>
      (conf, downloaded, .err (.msg ("Cannot update unknown scheme manager " ++ id)))
    | some manager =>
      match transportGetBytes E (manager.URL ++ "/") "timestamp" with
      | .error e => (conf, downloaded, .err e)
      | .ok timestampBts =>
        match parseTimestamp timestampBts with
        | .error e => (conf, downloaded, .err e)
        | .ok timestamp =>
          if ¬ (manager.Timestamp < timestamp) then (conf, downloaded, .ok ())
          else
            match DownloadSchemeManagerSignature E conf manager with
            | (conf1, some e) => (conf1, downloaded, .err e)
            | (conf1, none) =>
              match parseIndex conf1.Path conf1.fs manager.ID with
              | .err e => (conf1, downloaded, .err e)
              | .panicked m => (conf1, downloaded, .panicked m)
              | .ok (newIndex, ws) =>
                let conf2 := { conf1 with Warnings := conf1.Warnings ++ ws }
                match updateFilesLoop E manager newIndex conf2 downloaded with
                | (conf3, dl', .ok _) =>
                  let manager' := { manager with index := newIndex }
                  let conf4 :=
                    { conf3 with
                      SchemeManagers := assocInsert conf3.SchemeManagers id manager' }
                  (conf4, dl', .ok ())
                | r => r

/-- `Configuration.InstallSchemeManager` (src/irmaconfig.go:770): refuse on
read-only; else fetch `description.xml`, write or fetch `pk.pem`, download
and verify index and signature, register the manager, pull all indexed
files, and parse the scheme folder. -/
def InstallSchemeManager (E : GoExt) (conf : ConfState)
    (manager : SchemeManager) (publickey : Option Bytes) :
    ConfState × Res Unit :=
  if conf.readOnly then
    (conf, .err (.msg "cannot install scheme into a read-only configuration"))
  else
    let name := manager.ID
    let path := conf.Path ++ "/" ++ name
    match transportGetFile E conf.fs manager.URL "description.xml"
        (path ++ "/description.xml") with
    | .error e => (conf, .err e)
    | .ok fs1 =>
      let afterPk : Except GoErr FS :=
        match publickey with
        | some pk => .ok (fsWrite fs1 (path ++ "/pk.pem") pk)
        | none => transportGetFile E fs1 manager.URL "pk.pem" (path ++ "/pk.pem")
      match afterPk with
      | .error e => ({ conf with fs := fs1 }, .err e)
      | .ok fs2 =>
        let conf2 := { conf with fs := fs2 }
        match DownloadSchemeManagerSignature E conf2 manager with
        | (conf3, some e) => (conf3, .err e)
        | (conf3, none) =>
          let conf4 :=
            { conf3 with
              SchemeManagers := assocInsert conf3.SchemeManagers manager.ID manager }
          match UpdateSchemeManager E conf4 manager.ID none with
          | (conf5, _, .err e) => (conf5, .err e)
          | (conf5, _, .panicked m) => (conf5, .panicked m)
          | (conf5, _, .ok _) =>
            match ParseSchemeManagerFolder E conf5 (joinPath conf5.Path name)
                manager with
            | (conf6, .ok _) => (conf6, .ok ())
            | (conf6, .err e) => (conf6, .err e)
            | (conf6, .panicked m) => (conf6, .panicked m)

/-- `Configuration.ReinstallSchemeManager` (src/irmaconfig.go:750): refuse
on read-only; else re-download the scheme description, delete the stored
scheme, and install afresh. -/
def ReinstallSchemeManager (E : GoExt) (conf : ConfState)
    (manager : SchemeManager) : ConfState × Res Unit :=
  if conf.readOnly then
    (conf, .err (.msg "cannot install scheme into a read-only configuration"))
  else
    match DownloadSchemeManager E manager.URL with
    | .err e => (conf, .err e)
    | .panicked m => (conf, .panicked m)
    | .ok manager' =>
      match DeleteSchemeManager conf manager'.ID with
      | (conf1, some e) => (conf1, .err e)
      | (conf1, none) => InstallSchemeManager E conf1 manager' none

/-! ### The session state machine (src/session.go) -/

/-- The session `Action`.  The `Action` string constants are declared in
repository code outside the given sources; per the spec (§4.6, §7) the
switch in `NewSession` distinguishes exactly disclosing, signing and
issuing, with every other value (including `ActionUnknown`) failing with
`UnknownAction`, so the QR's `type` field is modelled by this sum. -/
inductive ActionK where
  | disclosing
  | signing
  | issuing
  | unknownAction (s : String)
  deriving DecidableEq, Repr

/-- The QR payload `Qr` as `NewSession` consumes it. -/
structure Qr where
  qrType : ActionK
  URL : String
  ProtocolVersion : String
  ProtocolMaxVersion : String
  deriving DecidableEq, Repr

/-- The session `ErrorCode`s used by src/session.go (their constants are
declared in repository code outside the given sources). -/
inductive ErrorCode where
  | protocolVersionNotSupported
  | unknownAction
  | invalidJWT
  | crypto
  | transport
  | rejected
  | keyshareBlocked
  | keyshare
  deriving DecidableEq, Repr

/-- `supportedVersions` (src/session.go:48): minor version lists are
reverse sorted. -/
def supportedVersions : List (Int × List Int) := [(2, [2, 1])]

/-- Go string indexing `s[i]`: panics when out of range. -/
def goStringIndex (s : String) (i : Nat) : Res Char :=
  match s.data.get? i with
  | some c => .ok c
  | none => .panicked "runtime error: index out of range"

/-- Go map read `supportedVersions[major]` (nil slice when absent). -/
def minorsOf (m : List (Int × List Int)) (k : Int) : List Int :=
  match m.find? (fun e => e.1 = k) with
  | some e => e.2
  | none => []

/-- The inner loop of `calcVersion` over the minor versions of one major. -/
def versionLoopInner (minmajor minminor maxmajor maxminor major : Int) :
    List Int → Option String
  | [] => none
  | minor :: rest =>
    let aboveMinimum := minmajor < major ∨ (major = minmajor ∧ minminor ≤ minor)
    let underMaximum := major < maxmajor ∨ (major = maxmajor ∧ minor ≤ maxminor)
    if aboveMinimum ∧ underMaximum then
      some (toString major ++ "." ++ toString minor)
    else versionLoopInner minmajor minminor maxmajor maxminor major rest

/-- The outer loop of `calcVersion` over the reverse-sorted major keys. -/
def versionLoopOuter (minmajor minminor maxmajor maxminor : Int) :
    List Int → Option String
  | [] => none
  | major :: rest =>
    match versionLoopInner minmajor minminor maxmajor maxminor major
        (minorsOf supportedVersions major) with
    | some s => some s
    | none => versionLoopOuter minmajor minminor maxmajor maxminor rest

/-- The version-parsing prefix of `calcVersion` (src/session.go:54-67):
read characters 0 and 2 of each version string (Go indexing, which panics
out of range) and `Atoi` each single character. -/
def parseMinMax (qr : Qr) : Res (Int × Int × Int × Int) := do
  let c0 ← goStringIndex qr.ProtocolVersion 0
  let minmajor ← goAtoi (String.mk [c0])
  let c2 ← goStringIndex qr.ProtocolVersion 2
  let minminor ← goAtoi (String.mk [c2])
  let d0 ← goStringIndex qr.ProtocolMaxVersion 0
  let maxmajor ← goAtoi (String.mk [d0])
  let d2 ← goStringIndex qr.ProtocolMaxVersion 2
  let maxminor ← goAtoi (String.mk [d2])
  pure (minmajor, minminor, maxmajor, maxminor)

/-- `calcVersion` (src/session.go:52). -/
def calcVersion (qr : Qr) : Res String := do
  let (minmajor, minminor, maxmajor, maxminor) ← parseMinMax qr
  let keys := sortIntDesc (supportedVersions.map (·.1))
  match versionLoopOuter minmajor minminor maxmajor maxminor keys with
  | some s => pure s
  | none =>
    .err (.msg ("No supported protocol version between " ++
      qr.ProtocolVersion ++ " and " ++ qr.ProtocolMaxVersion))

/-- The observable outcome of `NewSession` (src/session.go:88) up to the
`go session.start()` hand-off: a panic escaping from `calcVersion`, a
`session.fail` (transport DELETE plus `Handler.Failure` with the given
code), or a started session with the negotiated version. -/
inductive NSOutcome where
  | panicked (m : String)
  | failed (code : ErrorCode)
  | started (version : String)
  deriving DecidableEq, Repr

/-- `NewSession`: negotiate the version (failing with
`ErrorProtocolVersionNotSupported`), check the action, start. -/
def NewSession (qr : Qr) : NSOutcome :=
  match calcVersion qr with
  | .panicked m => .panicked m
  | .err _ => .failed .protocolVersionNotSupported
  | .ok v =>
    match qr.qrType with
    | .disclosing => .started v
    | .signing => .started v
    | .issuing => .started v
    | .unknownAction _ => .failed .unknownAction

/-- The handler callbacks and transport calls a session run emits, in
order. -/
inductive SEvent where
  | statusUpdate (st : String)
  | transportDelete
  | cancelled
  | failure (code : ErrorCode)
  | success
  | post (endpoint : String)
  | keyshareStarted
  deriving DecidableEq, Repr

/-- The environment of one `session.do` run: the session's action and the
results of the external calls it makes (`Distributed`, the credential
manager's proof computations, the transport posts, credential
construction).  Messages and builders are opaque (`Nat`). -/
structure DoEnv where
  action : ActionK
  distributed : Bool
  proofsRes : Except GoErr Nat
  commitmentsRes : Except GoErr Nat
  buildersRes : Except GoErr Nat
  issuanceBuildersRes : Except GoErr Nat
  postProofsRes : Except ErrorCode String
  postCommitmentsRes : Except ErrorCode Nat
  constructCredentialsErr : Option GoErr
  deriving DecidableEq, Repr

/-- `session.sendResponse` (src/session.go:248) as the trace of events it
emits: post the proofs or commitments, fail on a transport error, fail
`Rejected` on a response other than `"VALID"`, fail `Crypto` on credential
construction failure, else succeed. -/
def sendResponseTrace (env : DoEnv) : List SEvent :=
  match env.action with
  | .signing | .disclosing =>
    .post "proofs" ::
    (match env.postProofsRes with
     | .error c => [.transportDelete, .failure c]
     | .ok response =>
       if ¬ (response = "VALID") then [.transportDelete, .failure .rejected]
       else [.success])
  | .issuing =>
    .post "commitments" ::
    (match env.postCommitmentsRes with
     | .error c => [.transportDelete, .failure c]
     | .ok _ =>
       match env.constructCredentialsErr with
       | some _ => [.transportDelete, .failure .crypto]
       | none => [.success])
  | .unknownAction _ => [.success]

/-- `session.do` (src/session.go:186) as the trace of events it emits.  In
the distributed branch the error case calls `session.fail` but — unlike
every other error branch — does not return, so `startKeyshareSession` still
runs; the trace records this faithfully. -/
def sessionDo (env : DoEnv) (proceed : Bool) : List SEvent :=
  if ¬ proceed then [.transportDelete, .cancelled]
  else
    .statusUpdate "Communicating" ::
    (if ¬ env.distributed then
      let message :=
        match env.action with
        | .signing => env.proofsRes
        | .disclosing => env.proofsRes
        | .issuing => env.commitmentsRes
        | .unknownAction _ => .ok 0
      match message with
      | .error _ => [.transportDelete, .failure .crypto]
      | .ok _ => sendResponseTrace env
    else
      let builders :=
        match env.action with
        | .signing => env.buildersRes
        | .disclosing => env.buildersRes
        | .issuing => env.issuanceBuildersRes
        | .unknownAction _ => .ok 0
      match builders with
      | .error _ => [.transportDelete, .failure .crypto, .keyshareStarted]
      | .ok _ => [.keyshareStarted])

/-- `session.KeyshareDone` (src/session.go:229). -/
def keyshareDoneTrace (env : DoEnv) : List SEvent := sendResponseTrace env

/-- `session.KeyshareCancelled` (src/session.go:233). -/
def keyshareCancelledTrace : List SEvent := [.transportDelete, .cancelled]

/-- `session.KeyshareBlocked` (src/session.go:238). -/
def keyshareBlockedTrace : List SEvent := [.transportDelete, .failure .keyshareBlocked]

/-- `session.KeyshareError` (src/session.go:242). -/
def keyshareErrorTrace : List SEvent := [.transportDelete, .failure .keyshare]

/-! ## Theorems settling the claims -/

/-- A concrete external-function instance for witnesses and
counterexamples: the hash of a byte string is its first byte (or 0), PEM
and X.509 parsing succeed trivially, the ASN.1 signature yields `(0, 0)`,
and ECDSA verification accepts. -/
def ExtC : GoExt where
  sha256 := fun bs => [bs.headD 0]
  pemDecode := fun _ => some []
  x509ParsePKIX := fun _ => .ok (.ecdsa 0)
  asn1TwoInts := fun _ => [0, 0]
  ecdsaVerify := fun _ _ _ _ => true
  xmlScheme := fun _ => .error (.msg "no xml")
  xmlIssuer := fun _ => .error (.msg "no xml")
  xmlCred := fun _ => .error (.msg "no xml")
  base64Std := fun _ => ""
  http := fun _ _ => .error (.msg "no network")

/-- C2.  `ReadAuthenticatedFile` returns the file's bytes exactly when the
path is a key of the verified index and the SHA-256 of the read bytes
equals the recorded hash; the three failure modes are: not indexed (the
`(nil, false, nil)` return), an unreadable file (I/O error), and a hash
mismatch. -/
theorem readAuthenticatedFile_characterization (E : GoExt) (confPath : String)
    (fs : FS) (manager : SchemeManager) (path : String) :
    (∀ b : Bytes,
      ReadAuthenticatedFile E confPath fs manager path = (some b, true, none) ↔
      (∃ h, indexLookup manager.index path = some h ∧
        fsRead fs (joinPath confPath path) = some b ∧ E.sha256 b = h)) ∧
    (indexLookup manager.index path = none →
      ReadAuthenticatedFile E confPath fs manager path = (none, false, none)) ∧
    (∀ h, indexLookup manager.index path = some h →
      fsRead fs (joinPath confPath path) = none →
      ReadAuthenticatedFile E confPath fs manager path =
        (none, true, some (.msg ("open " ++ joinPath confPath path ++
          ": no such file or directory")))) ∧
    (∀ h b, indexLookup manager.index path = some h →
      fsRead fs (joinPath confPath path) = some b → ¬ (E.sha256 b = h) →
      ReadAuthenticatedFile E confPath fs manager path =
        (none, true, some (.msg ("Hash of " ++ path ++
          " does not match scheme manager index")))) := by
  unfold ReadAuthenticatedFile
  refine ⟨?_, ?_, ?_, ?_⟩
  · intro b
    constructor
    · intro hEq
      cases hidx : indexLookup manager.index path with
      | none => rw [hidx] at hEq; simp at hEq
      | some h =>
        rw [hidx] at hEq
        cases hread : fsRead fs (joinPath confPath path) with
        | none => rw [hread] at hEq; simp at hEq
        | some bts =>
          rw [hread] at hEq
          dsimp only at hEq
          by_cases hh : E.sha256 bts = h
          · rw [if_pos hh] at hEq
            refine ⟨h, rfl, ?_, ?_⟩
            · cases hEq; rfl
            · cases hEq; exact hh
          · rw [if_neg hh] at hEq; simp at hEq
    · rintro ⟨h, hidx, hread, hh⟩
      rw [hidx, hread]
      dsimp only
      rw [if_pos hh]
  · intro hidx; rw [hidx]
  · intro h hidx hread; rw [hidx, hread]
  · intro h b hidx hread hh
    rw [hidx, hread]
    dsimp only
    rw [if_neg hh]

/-- Witness for C2: a concrete indexed file with matching hash is returned,
via the characterization. -/
theorem readAuthenticatedFile_characterization_witness :
    ReadAuthenticatedFile ExtC "conf"
      [("conf/demo/f", [7, 7])]
      { NewSchemeManager "demo" with index := [("demo/f", [7])] }
      "demo/f" = (some [7, 7], true, none) :=
  ((readAuthenticatedFile_characterization ExtC "conf"
      [("conf/demo/f", [7, 7])]
      { NewSchemeManager "demo" with index := [("demo/f", [7])] }
      "demo/f").1 [7, 7]).mpr ⟨[7], rfl, rfl, rfl⟩

/-- C7.  `VerifySignature` is total on its input files: whatever the
contents of `index.sig` and `pk.pem` (and whatever the external parsers do
with them), it never lets a panic escape — the deferred `recover` converts
any deserialization panic of the body into a signature-verification
error. -/
theorem verifySignature_total (E : GoExt) (confPath : String) (fs : FS)
    (id : String) :
    ((VerifySignature E confPath fs id).isPanicked = false) ∧
    (∀ m, VerifySignatureBody E confPath fs id = .panicked m →
      VerifySignature E confPath fs id =
        .err (.msg ("Scheme manager index signature failed to verify: " ++ m))) := by
  constructor
  · unfold VerifySignature
    cases hb : VerifySignatureBody E confPath fs id <;> rfl
  · intro m h
    unfold VerifySignature
    rw [h]

/-- Witness for C7, at an input whose `pk.pem` has no PEM block: the body
panics on the nil-pointer dereference and `VerifySignature` converts the
panic into an error. -/
theorem verifySignature_total_witness :
    VerifySignature { ExtC with pemDecode := fun _ => none } "conf"
      [("conf/demo/index", [1]), ("conf/demo/index.sig", [2]),
       ("conf/demo/pk.pem", [3])] "demo" =
      .err (.msg ("Scheme manager index signature failed to verify: " ++
        "runtime error: invalid memory address or nil pointer dereference")) :=
  (verifySignature_total { ExtC with pemDecode := fun _ => none } "conf"
      [("conf/demo/index", [1]), ("conf/demo/index.sig", [2]),
       ("conf/demo/pk.pem", [3])] "demo").2
    "runtime error: invalid memory address or nil pointer dereference" rfl

/-- C5 (documents the missing `return` at src/session.go:221-225).  A
distributed session whose proof-builder construction fails invokes the
`Failure` handler callback and then still starts the keyshare sub-session:
the terminal callback is not the last step of the run. -/
theorem sessionDo_failure_then_keyshare :
    sessionDo
      { action := .disclosing, distributed := true,
        proofsRes := .ok 0, commitmentsRes := .ok 0,
        buildersRes := .error (.msg "proof builder failure"),
        issuanceBuildersRes := .ok 0, postProofsRes := .ok "VALID",
        postCommitmentsRes := .ok 0, constructCredentialsErr := none } true =
      [.statusUpdate "Communicating", .transportDelete, .failure .crypto,
        .keyshareStarted] := rfl

/-! ### C4: version negotiation -/

/-- All supported `(major, minor)` pairs, from the `supportedVersions`
table. -/
def specSupportedPairs : List (Int × Int) :=
  (supportedVersions.map (fun e => e.2.map (fun m => (e.1, m)))).flatten

/-- Whether a supported pair lies in the inclusive version range
`[min, max]` (lexicographic order on `(major, minor)`), as the spec states
it. -/
def pairInRange (a b c d : Int) (p : Int × Int) : Bool :=
  decide ((a < p.1 ∨ (p.1 = a ∧ b ≤ p.2)) ∧ (p.1 < c ∨ (p.1 = c ∧ p.2 ≤ d)))

/-- The lexicographically highest supported pair in range, per the spec's
words ("choose the highest `(major, minor)` that lies in `[min, max]`
intersected with supported"). -/
def bestSupported (a b c d : Int) : Option (Int × Int) :=
  (specSupportedPairs.filter (pairInRange a b c d)).foldl
    (fun acc p =>
      match acc with
      | none => some p
      | some q => if p.1 < q.1 ∨ (p.1 = q.1 ∧ p.2 ≤ q.2) then some q else some p)
    none

/-- C4.  When the QR's version strings parse, `calcVersion` returns exactly
the highest supported `(major, minor)` pair in the inclusive range, and
errs when no supported pair is in range; `NewSession` converts that error
into a `ProtocolVersionNotSupported` failure. -/
theorem calcVersion_returns_best (qr : Qr) (a b c d : Int)
    (hp : parseMinMax qr = .ok (a, b, c, d)) :
    (calcVersion qr =
      match bestSupported a b c d with
      | some p => .ok (toString p.1 ++ "." ++ toString p.2)
      | none => .err (.msg ("No supported protocol version between " ++
          qr.ProtocolVersion ++ " and " ++ qr.ProtocolMaxVersion))) ∧
    ((∃ e, calcVersion qr = .err e) →
      NewSession qr = .failed .protocolVersionNotSupported) := by
  constructor
  · by_cases h22 :
        (a < 2 ∨ ((2:Int) = a ∧ b ≤ 2)) ∧ ((2:Int) < c ∨ ((2:Int) = c ∧ (2:Int) ≤ d)) <;>
      by_cases h21 :
        (a < 2 ∨ ((2:Int) = a ∧ b ≤ 1)) ∧ ((2:Int) < c ∨ ((2:Int) = c ∧ (1:Int) ≤ d)) <;>
      simp [calcVersion, hp, Bind.bind, Res.bind, Pure.pure, versionLoopOuter, versionLoopInner,
        minorsOf, supportedVersions, sortIntDesc, insertSortedIntDesc,
        bestSupported, specSupportedPairs, pairInRange, h22, h21]
  · rintro ⟨e, he⟩
    unfold NewSession
    rw [he]

/-- Witness for C4, at the spec's own instances: QR min `2.1` max `2.2`
negotiates `"2.2"`; QR min `2.3` max `2.4` has no supported pair in range
and `NewSession` fails with `ProtocolVersionNotSupported`. -/
theorem calcVersion_returns_best_witness :
    calcVersion ⟨.disclosing, "", "2.1", "2.2"⟩ = .ok "2.2" ∧
    NewSession ⟨.disclosing, "", "2.3", "2.4"⟩ =
      .failed .protocolVersionNotSupported :=
  ⟨((calcVersion_returns_best ⟨.disclosing, "", "2.1", "2.2"⟩ 2 1 2 2 rfl).1).trans rfl,
   (calcVersion_returns_best ⟨.disclosing, "", "2.3", "2.4"⟩ 2 3 2 4 rfl).2
     ⟨.msg "No supported protocol version between 2.3 and 2.4",
      ((calcVersion_returns_best ⟨.disclosing, "", "2.3", "2.4"⟩ 2 3 2 4 rfl).1).trans rfl⟩⟩

/-! ### C10: version-string parsing, panics, and short strings -/

/-- `strconv.Atoi` on a single character: the digit's value, or a syntax
error for any non-digit (including `-` and `+` alone). -/
theorem goAtoi_single (c : Char) :
    goAtoi (String.mk [c]) =
      match digitVal c with
      | some d => .ok (d : Int)
      | none => .err (.msg ("strconv.Atoi: parsing " ++ String.mk [c] ++
          ": invalid syntax")) := by
  unfold goAtoi
  split
  · simp_all
  · rename_i rest heq
    have hc : c = '-' ∧ rest = ([] : List Char) := by
      cases heq; exact ⟨rfl, rfl⟩
    obtain ⟨rfl, rfl⟩ := hc
    rfl
  · rename_i rest heq
    have hc : c = '+' ∧ rest = ([] : List Char) := by
      cases heq; exact ⟨rfl, rfl⟩
    obtain ⟨rfl, rfl⟩ := hc
    rfl
  · unfold digitsVal
    cases hd : digitVal c with
    | none => simp [hd]
    | some d => simp [hd, digitsVal]

/-- Whether position `i` of `s` holds a decimal digit. -/
def digitAt (s : String) (i : Nat) : Bool :=
  match s.data.get? i with
  | some c => (digitVal c).isSome
  | none => false

/-- The exact condition under which `calcVersion`'s indexing panics: an
out-of-range read at position 0 or 2 is reached only while every
previously-read position held a digit (a non-digit stops parsing with an
`Atoi` error first). -/
def calcVersionPanicCond (pv pmv : String) : Bool :=
  decide (pv.data.length = 0) ||
  (digitAt pv 0 && decide (pv.data.length < 3)) ||
  (digitAt pv 0 && digitAt pv 2 && decide (pmv.data.length = 0)) ||
  (digitAt pv 0 && digitAt pv 2 && digitAt pmv 0 && decide (pmv.data.length < 3))

/-- The version-parsing prefix panics exactly under
`calcVersionPanicCond`. -/
theorem parseMinMax_panic_iff (qr : Qr) :
    (∃ m, parseMinMax qr = .panicked m) ↔
      calcVersionPanicCond qr.ProtocolVersion qr.ProtocolMaxVersion = true := by
  have hPV : qr.ProtocolVersion.length = qr.ProtocolVersion.data.length := rfl
  have hPM : qr.ProtocolMaxVersion.length = qr.ProtocolMaxVersion.data.length := rfl
  unfold parseMinMax calcVersionPanicCond digitAt goStringIndex
  cases hc0 : qr.ProtocolVersion.data.get? 0 with
  | none =>
    have hlen : qr.ProtocolVersion.data.length = 0 := by
      rcases hd : qr.ProtocolVersion.data with _ | ⟨c, t⟩
      · rfl
      · rw [hd] at hc0; simp at hc0
    simp [hc0, hlen, Bind.bind, Res.bind] <;> omega
  | some c0 =>
    have hne : ¬ qr.ProtocolVersion.data.length = 0 := by
      intro h
      rw [List.length_eq_zero] at h
      rw [h] at hc0; simp at hc0
    cases hd0 : digitVal c0 with
    | none =>
      simp [hc0, Bind.bind, Res.bind, goAtoi_single, hd0, hne] <;> omega
    | some v0 =>
      cases hc2 : qr.ProtocolVersion.data.get? 2 with
      | none =>
        have hlt : qr.ProtocolVersion.data.length < 3 := by
          have := List.get?_eq_none.mp hc2
          omega
        simp [hc0, hc2, Bind.bind, Res.bind, goAtoi_single, hd0, hne, hlt] <;> omega
      | some c2 =>
        have hge : ¬ qr.ProtocolVersion.data.length < 3 := by
          have h2 := List.get?_eq_some.mp hc2
          obtain ⟨hlt2, _⟩ := h2
          omega
        cases hd2 : digitVal c2 with
        | none =>
          simp [hc0, hc2, Bind.bind, Res.bind, goAtoi_single, hd0, hd2, hne,
            hge] <;> omega
        | some v2 =>
          cases he0 : qr.ProtocolMaxVersion.data.get? 0 with
          | none =>
            have hlen2 : qr.ProtocolMaxVersion.data.length = 0 := by
              rcases hd : qr.ProtocolMaxVersion.data with _ | ⟨c, t⟩
              · rfl
              · rw [hd] at he0; simp at he0
            simp [hc0, hc2, he0, Bind.bind, Res.bind, goAtoi_single, hd0, hd2,
              hne, hge, hlen2] <;> omega
          | some e0 =>
            have hne2 : ¬ qr.ProtocolMaxVersion.data.length = 0 := by
              intro h
              rw [List.length_eq_zero] at h
              rw [h] at he0; simp at he0
            cases hf0 : digitVal e0 with
            | none =>
              simp [hc0, hc2, he0, Bind.bind, Res.bind, goAtoi_single, hd0, hd2,
                hf0, hne, hge, hne2] <;> omega
            | some w0 =>
              cases he2 : qr.ProtocolMaxVersion.data.get? 2 with
              | none =>
                have hlt2 : qr.ProtocolMaxVersion.data.length < 3 := by
                  have := List.get?_eq_none.mp he2
                  omega
                simp [hc0, hc2, he0, he2, Bind.bind, Res.bind, goAtoi_single,
                  hd0, hd2, hf0, hne, hge, hne2, hlt2] <;> omega
              | some e2 =>
                have hge2 : ¬ qr.ProtocolMaxVersion.data.length < 3 := by
                  have h2 := List.get?_eq_some.mp he2
                  obtain ⟨hlt3, _⟩ := h2
                  omega
                cases hf2 : digitVal e2 with
                | none =>
                  simp [hc0, hc2, he0, he2, Bind.bind, Res.bind, goAtoi_single,
                    hd0, hd2, hf0, hf2, hne, hge, hne2, hge2] <;> omega
                | some w2 =>
                  simp [hc0, hc2, he0, he2, Bind.bind, Res.bind, Pure.pure,
                    goAtoi_single, hd0, hd2, hf0, hf2, hne, hge, hne2,
                    hge2] <;> omega

/-- C10 (amended).  `NewSession` panics exactly when an out-of-range read
at position 0 or 2 is reached with all previously-read positions digits
(`calcVersionPanicCond`); version parsing depends only on the characters at
positions 0 and 2 of the two version strings; and a multi-digit minor such
as `"2.10"` is read as `"2.1"`. -/
theorem newSession_panic_characterization (qr : Qr) :
    ((∃ m, NewSession qr = .panicked m) ↔
      calcVersionPanicCond qr.ProtocolVersion qr.ProtocolMaxVersion = true) ∧
    (∀ qr' : Qr,
      qr.ProtocolVersion.data.get? 0 = qr'.ProtocolVersion.data.get? 0 →
      qr.ProtocolVersion.data.get? 2 = qr'.ProtocolVersion.data.get? 2 →
      qr.ProtocolMaxVersion.data.get? 0 = qr'.ProtocolMaxVersion.data.get? 0 →
      qr.ProtocolMaxVersion.data.get? 2 = qr'.ProtocolMaxVersion.data.get? 2 →
      parseMinMax qr = parseMinMax qr') ∧
    (calcVersion ⟨.disclosing, "", "2.1", "2.10"⟩ = .ok "2.1") := by
  refine ⟨?_, ?_, rfl⟩
  · have h1 : (∃ m, NewSession qr = .panicked m) ↔
        (∃ m, calcVersion qr = .panicked m) := by
      unfold NewSession
      cases hcv : calcVersion qr with
      | ok v => cases hqt : qr.qrType <;> simp
      | err e => simp
      | panicked m => simp
    have h2 : (∃ m, calcVersion qr = .panicked m) ↔
        (∃ m, parseMinMax qr = .panicked m) := by
      unfold calcVersion
      cases hp : parseMinMax qr with
      | ok x =>
        obtain ⟨a, b, c, d⟩ := x
        cases hvo : versionLoopOuter a b c d
            (sortIntDesc (supportedVersions.map (·.1))) <;>
          simp [Bind.bind, Res.bind, Pure.pure, hvo]
      | err e => simp [Bind.bind, Res.bind]
      | panicked m => simp [Bind.bind, Res.bind]
    exact h1.trans (h2.trans (parseMinMax_panic_iff qr))
  · intro qr' h0 h2 h0' h2'
    unfold parseMinMax goStringIndex
    rw [h0, h2, h0', h2']

/-- Counterexample to C10 as stated: the QR with `protocolVersion = "ab"`
(shorter than 3 characters) and `protocolMaxVersion = ""` does not make
`NewSession` panic — `Atoi` rejects the non-digit at position 0 first and
the session failure is reported instead. -/
theorem newSession_short_noPanic_counterexample :
    ("ab".data.length < 3) ∧
    NewSession ⟨.disclosing, "", "ab", ""⟩ =
      .failed .protocolVersionNotSupported :=
  ⟨by decide, rfl⟩

/-- Witness for C10 (amended): `protocolVersion = "2"` (a digit at position
0, length below 3) panics, and two QRs agreeing at positions 0 and 2 parse
identically. -/
theorem newSession_panic_characterization_witness :
    (∃ m, NewSession ⟨.disclosing, "", "2", ""⟩ = .panicked m) ∧
    parseMinMax ⟨.disclosing, "", "2.1x", "2.20"⟩ =
      parseMinMax ⟨.disclosing, "", "2.1y", "2.25"⟩ :=
  ⟨(newSession_panic_characterization ⟨.disclosing, "", "2", ""⟩).1.mpr (by decide),
   (newSession_panic_characterization ⟨.disclosing, "", "2.1x", "2.20"⟩).2.1
     ⟨.disclosing, "", "2.1y", "2.25"⟩ rfl rfl rfl rfl⟩

/-! ### C6: index-line parsing errors -/

def exceptIsOk {ε α : Type} : Except ε α → Bool
  | .ok _ => true
  | .error _ => false

/-- A line of index text that `FromString` accepts: empty, or exactly two
space-separated parts whose first part hex-decodes (of any even length —
64 characters are not required). -/
def indexLineOK (line : List Char) : Bool :=
  line.isEmpty ||
  (match splitOnChar ' ' line with
   | [p0, _] => exceptIsOk (hexDecode p0)
   | _ => false)

theorem fromStringAux_ok_iff (lines : List (List Char)) :
    ∀ (m : SchemeManagerIndex) (j : Nat),
    (∃ M, fromStringAux m j lines = .ok M) ↔
      ∀ line ∈ lines, indexLineOK line = true := by
  induction lines with
  | nil => intro m j; simp [fromStringAux]
  | cons line rest ih =>
    intro m j
    by_cases hemp : line.isEmpty
    · have hnil : line = [] := by simpa using hemp
      simp only [fromStringAux, hemp, if_pos]
      rw [ih]
      simp [indexLineOK, hnil]
    · have hne : ¬ line = [] := by simpa using hemp
      have hstep : ∀ (r : Except GoErr SchemeManagerIndex),
          fromStringAux m j (line :: rest) = r → fromStringAux m j (line :: rest) = r :=
        fun _ h => h
      rcases hsp : splitOnChar ' ' line with _ | ⟨p0, _ | ⟨p1, _ | _⟩⟩
      · have hbad : indexLineOK line = false := by simp [indexLineOK, hne, hsp]
        rw [show fromStringAux m j (line :: rest) =
            .error (.msg ("Scheme manager index line " ++ toString j ++
              " has incorrect amount of parts")) by
          unfold fromStringAux; rw [if_neg hemp, hsp]]
        constructor
        · rintro ⟨M, hM⟩; cases hM
        · intro hall
          have h1 := hall line (by simp)
          rw [h1] at hbad; cases hbad
      · have hbad : indexLineOK line = false := by simp [indexLineOK, hne, hsp]
        rw [show fromStringAux m j (line :: rest) =
            .error (.msg ("Scheme manager index line " ++ toString j ++
              " has incorrect amount of parts")) by
          unfold fromStringAux; rw [if_neg hemp, hsp]]
        constructor
        · rintro ⟨M, hM⟩; cases hM
        · intro hall
          have h1 := hall line (by simp)
          rw [h1] at hbad; cases hbad
      · cases hdec : hexDecode p0 with
        | error e =>
          have hbad : indexLineOK line = false := by
            simp [indexLineOK, hne, hsp, hdec, exceptIsOk]
          rw [show fromStringAux m j (line :: rest) = .error e by
            unfold fromStringAux; rw [if_neg hemp, hsp]; dsimp only; rw [hdec]]
          constructor
          · rintro ⟨M, hM⟩; cases hM
          · intro hall
            have h1 := hall line (by simp)
            rw [h1] at hbad; cases hbad
        | ok hash =>
          have hrec : fromStringAux m j (line :: rest) =
              fromStringAux (indexInsert m (String.mk p1) hash) (j + 1) rest := by
            conv_lhs => rw [fromStringAux]
            rw [if_neg hemp, hsp]
            dsimp only
            rw [hdec]
          rw [hrec, ih]
          simp [indexLineOK, hne, hsp, hdec, exceptIsOk]
      · have hbad : indexLineOK line = false := by simp [indexLineOK, hne, hsp]
        rw [show fromStringAux m j (line :: rest) =
            .error (.msg ("Scheme manager index line " ++ toString j ++
              " has incorrect amount of parts")) by
          unfold fromStringAux; rw [if_neg hemp, hsp]]
        constructor
        · rintro ⟨M, hM⟩; cases hM
        · intro hall
          have h1 := hall line (by simp)
          rw [h1] at hbad; cases hbad

theorem fromStringAux_first_badParts (ls₁ : List (List Char)) :
    ∀ (m : SchemeManagerIndex) (j : Nat) (line : List Char)
      (ls₂ : List (List Char)),
    (∀ l ∈ ls₁, indexLineOK l = true) → ¬ line.isEmpty = true →
    (splitOnChar ' ' line).length ≠ 2 →
    fromStringAux m j (ls₁ ++ line :: ls₂) =
      .error (.msg ("Scheme manager index line " ++ toString (j + ls₁.length) ++
        " has incorrect amount of parts")) := by
  induction ls₁ with
  | nil =>
    intro m j line ls₂ _ hemp hparts
    simp only [List.nil_append, List.length_nil, Nat.add_zero]
    rcases hsp : splitOnChar ' ' line with _ | ⟨p0, _ | ⟨p1, _ | _⟩⟩
    · conv_lhs => rw [fromStringAux]
      rw [if_neg hemp, hsp]
    · conv_lhs => rw [fromStringAux]
      rw [if_neg hemp, hsp]
    · exact (hparts (by simp [hsp])).elim
    · conv_lhs => rw [fromStringAux]
      rw [if_neg hemp, hsp]
  | cons l rest ih =>
    intro m j line ls₂ hok hemp hparts
    have hl : indexLineOK l = true := hok l (by simp)
    have hrest : ∀ x ∈ rest, indexLineOK x = true := fun x hx => hok x (by simp [hx])
    by_cases hle : l.isEmpty
    · have hstep : fromStringAux m j ((l :: rest) ++ line :: ls₂) =
          fromStringAux m (j + 1) (rest ++ line :: ls₂) := by
        conv_lhs => rw [List.cons_append, fromStringAux]
        rw [if_pos hle]
      rw [hstep, ih m (j + 1) line ls₂ hrest hemp hparts]
      have h2 : j + 1 + rest.length = j + (l :: rest).length := by
        simp [List.length_cons]
        omega
      rw [h2]
    · have hlne : ¬ l = [] := by simpa using hle
      unfold indexLineOK at hl
      rw [Bool.or_eq_true] at hl
      rcases hl with hl | hl
      · exact absurd hl hle
      · rcases hsp2 : splitOnChar ' ' l with _ | ⟨q0, _ | ⟨q1, _ | _⟩⟩ <;>
          rw [hsp2] at hl
        · simp at hl
        · simp at hl
        · cases hdec2 : hexDecode q0 with
          | error e2 => dsimp only at hl; rw [hdec2] at hl; simp [exceptIsOk] at hl
          | ok hash =>
            have hstep : fromStringAux m j ((l :: rest) ++ line :: ls₂) =
                fromStringAux (indexInsert m (String.mk q1) hash) (j + 1)
                  (rest ++ line :: ls₂) := by
              conv_lhs => rw [List.cons_append, fromStringAux]
              rw [if_neg hle, hsp2]
              dsimp only
              rw [hdec2]
            rw [hstep, ih _ (j + 1) line ls₂ hrest hemp hparts]
            have h2 : j + 1 + rest.length = j + (l :: rest).length := by
              simp [List.length_cons]
              omega
            rw [h2]
        · simp at hl

theorem fromStringAux_first_badHex (ls₁ : List (List Char)) :
    ∀ (m : SchemeManagerIndex) (j : Nat) (line : List Char)
      (ls₂ : List (List Char)) (p0 p1 : List Char) (e : GoErr),
    (∀ l ∈ ls₁, indexLineOK l = true) → ¬ line.isEmpty = true →
    splitOnChar ' ' line = [p0, p1] → hexDecode p0 = .error e →
    fromStringAux m j (ls₁ ++ line :: ls₂) = .error e := by
  induction ls₁ with
  | nil =>
    intro m j line ls₂ p0 p1 e _ hemp hsp hdec
    conv_lhs => rw [List.nil_append, fromStringAux]
    rw [if_neg hemp, hsp]
    dsimp only
    rw [hdec]
  | cons l rest ih =>
    intro m j line ls₂ p0 p1 e hok hemp hsp hdec
    have hl : indexLineOK l = true := hok l (by simp)
    have hrest : ∀ x ∈ rest, indexLineOK x = true := fun x hx => hok x (by simp [hx])
    by_cases hle : l.isEmpty
    · have hstep : fromStringAux m j ((l :: rest) ++ line :: ls₂) =
          fromStringAux m (j + 1) (rest ++ line :: ls₂) := by
        conv_lhs => rw [List.cons_append, fromStringAux]
        rw [if_pos hle]
      rw [hstep]
      exact ih m (j + 1) line ls₂ p0 p1 e hrest hemp hsp hdec
    · unfold indexLineOK at hl
      rw [Bool.or_eq_true] at hl
      rcases hl with hl | hl
      · exact absurd hl hle
      · rcases hsp2 : splitOnChar ' ' l with _ | ⟨q0, _ | ⟨q1, _ | _⟩⟩ <;>
          rw [hsp2] at hl
        · simp at hl
        · simp at hl
        · cases hdec2 : hexDecode q0 with
          | error e2 => dsimp only at hl; rw [hdec2] at hl; simp [exceptIsOk] at hl
          | ok hash =>
            have hstep : fromStringAux m j ((l :: rest) ++ line :: ls₂) =
                fromStringAux (indexInsert m (String.mk q1) hash) (j + 1)
                  (rest ++ line :: ls₂) := by
              conv_lhs => rw [List.cons_append, fromStringAux]
              rw [if_neg hle, hsp2]
              dsimp only
              rw [hdec2]
            rw [hstep]
            exact ih _ (j + 1) line ls₂ p0 p1 e hrest hemp hsp hdec
        · simp at hl

/-- C6 (amended).  `FromString` succeeds exactly when every nonempty line
has two space-separated parts with a hex-decodable hash field (of any even
length — 64 characters are not required); empty lines are ignored.  The
first nonempty line with a part count other than two fails with an error
naming that line's number; a hash field that is not valid hex fails with
the hex error (which carries no line number). -/
theorem fromString_error_characterization (s : String) :
    ((∃ M, SchemeManagerIndex.FromString s = .ok M) ↔
      ∀ line ∈ splitOnChar '\n' s.data, indexLineOK line = true) ∧
    (∀ ls₁ line ls₂, splitOnChar '\n' s.data = ls₁ ++ line :: ls₂ →
      (∀ l ∈ ls₁, indexLineOK l = true) → ¬ line.isEmpty = true →
      (splitOnChar ' ' line).length ≠ 2 →
      SchemeManagerIndex.FromString s =
        .error (.msg ("Scheme manager index line " ++ toString ls₁.length ++
          " has incorrect amount of parts"))) ∧
    (∀ ls₁ line ls₂ p0 p1 e, splitOnChar '\n' s.data = ls₁ ++ line :: ls₂ →
      (∀ l ∈ ls₁, indexLineOK l = true) → ¬ line.isEmpty = true →
      splitOnChar ' ' line = [p0, p1] → hexDecode p0 = .error e →
      SchemeManagerIndex.FromString s = .error e) := by
  refine ⟨?_, ?_, ?_⟩
  · exact fromStringAux_ok_iff _ [] 0
  · intro ls₁ line ls₂ hsplit hok hemp hparts
    unfold SchemeManagerIndex.FromString
    rw [hsplit, fromStringAux_first_badParts ls₁ [] 0 line ls₂ hok hemp hparts]
    simp
  · intro ls₁ line ls₂ p0 p1 e hsplit hok hemp hsp hdec
    unfold SchemeManagerIndex.FromString
    rw [hsplit]
    exact fromStringAux_first_badHex ls₁ [] 0 line ls₂ p0 p1 e hok hemp hsp hdec

/-- Counterexample to C6 as stated: an entry line whose hash-hex field has
4 characters (not 64) parses successfully — `FromString` enforces only
even-length valid hex, not a 64-character length. -/
theorem fromString_shortHex_counterexample :
    ¬ ("abcd".data.length = 64) ∧
    SchemeManagerIndex.FromString "abcd somepath\n" =
      .ok [("somepath", [171, 205])] :=
  ⟨by decide, rfl⟩

/-- Witness for C6 (amended): a one-part line at index 1 yields the
numbered parts error, and an invalid hex digit yields the hex error. -/
theorem fromString_error_characterization_witness :
    SchemeManagerIndex.FromString "aa b\nbad\n" =
      .error (.msg "Scheme manager index line 1 has incorrect amount of parts") ∧
    SchemeManagerIndex.FromString "zz p\n" = .error (.hexInvalidByte 'z') :=
  ⟨(fromString_error_characterization "aa b\nbad\n").2.1
      ["aa b".data] "bad".data [[]] (by decide) (by decide) (by decide) (by decide),
   (fromString_error_characterization "zz p\n").2.2
      [] "zz p".data [[]] "zz".data "p".data (.hexInvalidByte 'z')
      (by decide) (by decide) (by decide) (by decide) (by decide)⟩

/-- C9.  When the remote timestamp is not strictly newer than the stored
manager's timestamp, `UpdateSchemeManager` returns successfully with the
configuration — maps, warnings and filesystem — completely unchanged and
the `downloaded` set untouched; running it again therefore does exactly the
same. -/
theorem updateSchemeManager_noop (E : GoExt) (conf : ConfState) (id : String)
    (downloaded : Option IrmaIdentifierSet) (manager : SchemeManager)
    (tbts : Bytes) (ts : Nat)
    (hro : conf.readOnly = false)
    (hmgr : assocLookup conf.SchemeManagers id = some manager)
    (hhttp : E.http (manager.URL ++ "/") "timestamp" = .ok tbts)
    (hts : parseTimestamp tbts = .ok ts)
    (hnotnewer : ¬ manager.Timestamp < ts) :
    UpdateSchemeManager E conf id downloaded = (conf, downloaded, .ok ()) := by
  unfold UpdateSchemeManager transportGetBytes
  rw [if_neg (by rw [hro]; simp), hmgr]
  dsimp only
  rw [hhttp]
  dsimp only
  rw [hts]
  dsimp only
  rw [if_pos hnotnewer]

/-- A concrete configuration for the C9 witness: one stored scheme `demo`
at timestamp 100, and a remote whose `timestamp` file also reads 100. -/
def confC9 : ConfState :=
  { Path := "conf", SchemeManagers := [("demo",
      { NewSchemeManager "demo" with URL := "u", Timestamp := 100 })],
    Issuers := [], CredentialTypes := [], AttributeTypes := [],
    DisabledSchemeManagers := [], publicKeysKeys := [], reverseHashes := [],
    Warnings := [], readOnly := false,
    fs := [("conf/demo/index", [0])] }

def extC9 : GoExt :=
  { ExtC with http := fun base name =>
      if base = "u/" ∧ name = "timestamp" then .ok (stringBytes "100\n")
      else .error (.msg "no network") }

/-- Witness for C9: updating `demo` against the unchanged remote returns
success and rewrites nothing, twice over. -/
theorem updateSchemeManager_noop_witness :
    UpdateSchemeManager extC9 confC9 "demo" none = (confC9, none, .ok ()) ∧
    UpdateSchemeManager extC9
        (UpdateSchemeManager extC9 confC9 "demo" none).1 "demo" none =
      (confC9, none, .ok ()) := by
  have h := updateSchemeManager_noop extC9 confC9 "demo" none
    { NewSchemeManager "demo" with URL := "u", Timestamp := 100 }
    (stringBytes "100\n") 100 rfl rfl (by decide) (by decide) (by decide)
  exact ⟨h, by rw [h]; exact h⟩

/-- A concrete read-only configuration holding one scheme `demo` with a
file on disk. -/
def confRO : ConfState :=
  { Path := "conf", SchemeManagers := [("demo", NewSchemeManager "demo")],
    Issuers := [], CredentialTypes := [], AttributeTypes := [],
    DisabledSchemeManagers := [], publicKeysKeys := [], reverseHashes := [],
    Warnings := [], readOnly := true,
    fs := [("conf/demo/x", [1])] }

/-- Counterexample to C3 as stated: on a read-only configuration,
`RemoveSchemeManager` returns no error at all, removes the scheme from the
in-memory map, and with `fromStorage = true` even deletes the scheme's
storage. -/
theorem removeSchemeManager_readOnly_counterexample :
    confRO.readOnly = true ∧
    RemoveSchemeManager confRO "demo" true =
      ({ confRO with SchemeManagers := [], fs := [] }, none) :=
  ⟨rfl, rfl⟩

/-- C3 (amended).  On a read-only configuration the install, reinstall,
update and download operations fail with their read-only error and leave
the configuration unchanged; `RemoveSchemeManager` does not: it never
returns a read-only error, always removes the scheme from the in-memory
maps, leaves the storage alone only when `fromStorage` is false, and
deletes it when `fromStorage` is true. -/
theorem mutatingOps_readOnly (E : GoExt) (conf : ConfState)
    (manager : SchemeManager) (pk : Option Bytes) (id : String)
    (dl : Option IrmaIdentifierSet) (fromStorage : Bool)
    (hro : conf.readOnly = true) :
    InstallSchemeManager E conf manager pk =
      (conf, .err (.msg "cannot install scheme into a read-only configuration")) ∧
    ReinstallSchemeManager E conf manager =
      (conf, .err (.msg "cannot install scheme into a read-only configuration")) ∧
    UpdateSchemeManager E conf id dl =
      (conf, dl, .err (.msg "cannot update a read-only configuration")) ∧
    DownloadSchemeManagerSignature E conf manager =
      (conf, some (.msg "cannot download into a read-only configuration")) ∧
    ((RemoveSchemeManager conf id fromStorage).2 = none ∧
      (RemoveSchemeManager conf id fromStorage).1.SchemeManagers =
        assocDelete conf.SchemeManagers id ∧
      (fromStorage = false →
        (RemoveSchemeManager conf id fromStorage).1.fs = conf.fs) ∧
      (fromStorage = true →
        (RemoveSchemeManager conf id fromStorage).1.fs =
          fsRemoveAll conf.fs (joinPath conf.Path id))) := by
  refine ⟨?_, ?_, ?_, ?_, ?_⟩
  · unfold InstallSchemeManager
    rw [if_pos hro]
  · unfold ReinstallSchemeManager
    rw [if_pos hro]
  · unfold UpdateSchemeManager
    rw [if_pos hro]
  · unfold DownloadSchemeManagerSignature
    rw [if_pos hro]
  · unfold RemoveSchemeManager
    cases fromStorage with
    | false =>
      rw [if_neg (by simp [hro])]
      refine ⟨rfl, rfl, ?_, ?_⟩
      · intro _; rfl
      · intro h; cases h
    | true =>
      rw [if_pos (by simp)]
      refine ⟨rfl, rfl, ?_, ?_⟩
      · intro h; cases h
      · intro _; rfl

/-- Witness for C3 (amended), on the concrete read-only configuration:
install refuses with the read-only error and remove reports no error. -/
theorem mutatingOps_readOnly_witness :
    InstallSchemeManager ExtC confRO (NewSchemeManager "demo") none =
      (confRO, .err (.msg "cannot install scheme into a read-only configuration")) ∧
    (RemoveSchemeManager confRO "demo" false).2 = none :=
  ⟨(mutatingOps_readOnly ExtC confRO (NewSchemeManager "demo") none "demo"
      none false rfl).1,
   (mutatingOps_readOnly ExtC confRO (NewSchemeManager "demo") none "demo"
      none false rfl).2.2.2.2.1⟩

/-! ### C1: Valid schemes and indexed file hashes -/

theorem pathExists_of_fsRead (fs : FS) (q : String) (b : Bytes)
    (hf : fsRead fs q = some b) : pathExists fs q = true := by
  unfold fsRead at hf
  cases hfind : fs.find? (fun e => e.1 = q) with
  | none => rw [hfind] at hf; cases hf
  | some e =>
    have hp := List.find?_some hfind
    have hm := List.mem_of_find?_eq_some hfind
    have hany : fs.any (fun e => decide (e.1 = q)) = true := by
      rw [List.any_eq_true]
      exact ⟨e, hm, hp⟩
    unfold pathExists isFile
    rw [hany]
    rfl

/-- If the `VerifySchemeManager` file loop succeeds, every iterated file
that is readable on disk hashes to its index entry. -/
theorem verifyFiles_hashes (E : GoExt) (confPath : String) (fs : FS)
    (manager : SchemeManager) :
    ∀ entries : List (String × Bytes),
    verifySchemeManagerFiles E confPath fs manager entries = .ok () →
    ∀ p, p ∈ entries.map (·.1) →
    ∀ h b, indexLookup manager.index p = some h →
      fsRead fs (joinPath confPath p) = some b → E.sha256 b = h := by
  intro entries
  induction entries with
  | nil => intro _ p hp; simp at hp
  | cons e rest ih =>
    obtain ⟨file, v⟩ := e
    intro hok p hp h b hlook hread
    unfold verifySchemeManagerFiles at hok
    by_cases hex : pathExists fs (joinPath confPath file) = true
    · rw [if_neg (by simp [hex])] at hok
      rcases hmem : ReadAuthenticatedFile E confPath fs manager file with
        ⟨bts, found, rerr⟩
      rw [hmem] at hok
      cases rerr with
      | some e2 => cases hok
      | none =>
        rcases List.mem_map.mp hp with ⟨q, hq, hqp⟩
        rcases List.mem_cons.mp hq with hq1 | hq2
        · subst hq1
          simp only at hqp
          subst hqp
          by_cases hsha : E.sha256 b = h
          · exact hsha
          · exfalso
            unfold ReadAuthenticatedFile at hmem
            rw [hlook, hread] at hmem
            dsimp only at hmem
            rw [if_neg hsha] at hmem
            cases hmem
        · exact ih hok p (List.mem_map.mpr ⟨q, hq2, hqp⟩) h b hlook hread
    · rw [if_pos (by simpa using hex)] at hok
      rcases List.mem_map.mp hp with ⟨q, hq, hqp⟩
      rcases List.mem_cons.mp hq with hq1 | hq2
      · exfalso
        subst hq1
        simp only at hqp
        subst hqp
        exact hex (pathExists_of_fsRead fs _ b hread)
      · exact ih hok p (List.mem_map.mpr ⟨q, hq2, hqp⟩) h b hlook hread

/-- If `VerifySchemeManager` succeeds, every indexed path that is readable
on disk hashes to the value the index records for it. -/
theorem verifySchemeManager_hashes (E : GoExt) (confPath : String) (fs : FS)
    (manager : SchemeManager) (u : Unit)
    (hok : VerifySchemeManager E confPath fs manager = .ok u) :
    ∀ p h b, indexLookup manager.index p = some h →
      fsRead fs (joinPath confPath p) = some b → E.sha256 b = h := by
  intro p h b hlook hread
  cases u
  unfold VerifySchemeManager at hok
  cases hv : VerifySignature E confPath fs manager.ID with
  | ok u =>
    rw [hv] at hok
    have hmem : p ∈ manager.index.map (·.1) := by
      unfold indexLookup at hlook
      cases hfind : manager.index.find? (fun e => e.1 = p) with
      | none => rw [hfind] at hlook; cases hlook
      | some e =>
        have hpe : e.1 = p := by
          have := List.find?_some hfind
          simpa using this
        exact List.mem_map.mpr ⟨e, List.mem_of_find?_eq_some hfind, hpe⟩
    exact verifyFiles_hashes E confPath fs manager manager.index hok p hmem h b
      hlook hread
  | err e => rw [hv] at hok; cases hok
  | panicked m2 => rw [hv] at hok; cases hok

/-- A successful `checkScheme` returns the scheme unchanged. -/
theorem checkScheme_ok (fs : FS) (s : SchemeManager) (dir : String)
    (s' : SchemeManager) (ws : List String)
    (h : checkScheme fs s dir = (s', ws, none)) : s' = s := by
  unfold checkScheme at h
  split at h
  · exact absurd (congrArg (fun t => t.2.2) h) (by simp)
  · split at h
    · exact absurd (congrArg (fun t => t.2.2) h) (by simp)
    · split at h
      · exact absurd (congrArg (fun t => t.2.2) h) (by simp)
      · exact (congrArg (fun t => t.1) h).symm

/-- C1 (amended).  A scheme manager that `ParseSchemeManagerFolder` parses
successfully has status `Valid`, and every path listed in its signed index
whose file is readable on disk has contents hashing to the recorded value.
(Indexed paths may be absent from disk: `VerifySchemeManager` skips them,
see the counterexample.) -/
theorem parseSchemeManagerFolder_valid (E : GoExt) (conf : ConfState)
    (dir : String) (m0 : SchemeManager) (conf' : ConfState) (m : SchemeManager)
    (hrun : ParseSchemeManagerFolder E conf dir m0 = (conf', .ok m)) :
    m.Status = .valid ∧ m.Valid = true ∧
    ∀ p h b, indexLookup m.index p = some h →
      fsRead conf.fs (joinPath conf.Path p) = some b → E.sha256 b = h := by
  unfold ParseSchemeManagerFolder smfFail at hrun
  dsimp only at hrun
  split at hrun
  · exact absurd (congrArg (fun t => t.2) hrun) (by simp)
  · exact absurd (congrArg (fun t => t.2) hrun) (by simp)
  · split at hrun
    · exact absurd (congrArg (fun t => t.2) hrun) (by simp)
    · exact absurd (congrArg (fun t => t.2) hrun) (by simp)
    · rename_i index ws hidx
      split at hrun
      · exact absurd (congrArg (fun t => t.2) hrun) (by simp)
      · exact absurd (congrArg (fun t => t.2) hrun) (by simp)
      · exact absurd (congrArg (fun t => t.2) hrun) (by simp)
      · rename_i desc hdesc
        split at hrun
        · exact absurd (congrArg (fun t => t.2) hrun) (by simp)
        · rename_i manager3 ws2 hcheck
          split at hrun
          · exact absurd (congrArg (fun t => t.2) hrun) (by simp)
          · exact absurd (congrArg (fun t => t.2) hrun) (by simp)
          · rename_i hvsm
            split at hrun
            · rename_i ts hts
              split at hrun
              · exact absurd (congrArg (fun t => t.2) hrun) (by simp)
              · exact absurd (congrArg (fun t => t.2) hrun) (by simp)
              · rename_i conf3 u2 hpif
                have hm2 := congrArg (fun t => t.2) hrun
                dsimp only at hm2
                injection hm2 with hm3
                subst hm3
                refine ⟨rfl, rfl, ?_⟩
                intro p h b hlook hread
                exact verifySchemeManager_hashes E conf.Path conf.fs manager3 _
                  hvsm p h b hlook hread
            · exact absurd (congrArg (fun t => t.2) hrun) (by simp)

/-- External functions for the C1 instance: every file hashes to `[0]`,
signature checks pass, and the scheme XML parses to version 7 with id
`demo`. -/
def extC1 : GoExt :=
  { ExtC with
    sha256 := fun _ => [0],
    xmlScheme := fun _ => .ok ⟨7, "demo", "http://u", "", []⟩ }

/-- A configuration whose `demo` scheme is fully well-formed except that
the indexed path `demo/ghost` has no file on disk. -/
def confC1 : ConfState :=
  { Path := "conf", SchemeManagers := [], Issuers := [], CredentialTypes := [],
    AttributeTypes := [], DisabledSchemeManagers := [], publicKeysKeys := [],
    reverseHashes := [], Warnings := [], readOnly := false,
    fs := [("conf/demo/description.xml", [1]),
           ("conf/demo/index",
             stringBytes "00 demo/description.xml\n00 demo/ghost\n"),
           ("conf/demo/index.sig", [2]),
           ("conf/demo/pk.pem", [3]),
           ("conf/demo/timestamp", stringBytes "100\n")] }

/-- The manager `ParseSchemeManagerFolder` produces for `confC1`. -/
def mC1 : SchemeManager :=
  { ID := "demo", URL := "http://u", Status := .valid, Valid := true,
    Timestamp := 100,
    index := [("demo/description.xml", [0]), ("demo/ghost", [0])],
    XMLVersion := 7, KeyshareServer := "", translations := [] }

/-- Counterexample to C1 as stated: `ParseSchemeManagerFolder` marks the
`demo` scheme `Valid` although the path `demo/ghost` listed in its signed
index does not exist on disk — `VerifySchemeManager` skips absent indexed
files. -/
theorem parseSchemeManagerFolder_missingFile_counterexample :
    (ParseSchemeManagerFolder extC1 confC1 "conf/demo"
      (NewSchemeManager "demo")).2 = .ok mC1 ∧
    mC1.Status = .valid ∧
    indexLookup mC1.index "demo/ghost" = some [0] ∧
    fsRead confC1.fs "conf/demo/ghost" = none :=
  ⟨rfl, rfl, rfl, rfl⟩

/-- Witness for C1 (amended), on the same run: the scheme is `Valid` and
the on-disk indexed file `demo/description.xml` hashes to its index
entry. -/
theorem parseSchemeManagerFolder_valid_witness :
    mC1.Status = .valid ∧ extC1.sha256 [1] = [0] :=
  ⟨(parseSchemeManagerFolder_valid extC1 confC1 "conf/demo"
      (NewSchemeManager "demo")
      (ParseSchemeManagerFolder extC1 confC1 "conf/demo"
        (NewSchemeManager "demo")).1 mC1 rfl).1,
   (parseSchemeManagerFolder_valid extC1 confC1 "conf/demo"
      (NewSchemeManager "demo")
      (ParseSchemeManagerFolder extC1 confC1 "conf/demo"
        (NewSchemeManager "demo")).1 mC1 rfl).2.2 "demo/description.xml" [0] [1]
      rfl rfl⟩

/-! ### C8: serialization of a parsed index -/

/-- The keys of an association list. -/
def keysOf (l : List (String × Bytes)) : List String := l.map (·.1)

theorem indexLookup_nil (p : String) : indexLookup [] p = none := rfl

theorem indexLookup_cons (e : String × Bytes) (m : SchemeManagerIndex)
    (p : String) :
    indexLookup (e :: m) p =
      if e.1 = p then some e.2 else indexLookup m p := by
  unfold indexLookup
  by_cases h : e.1 = p
  · rw [List.find?_cons_of_pos _ (by simpa using h), if_pos h]
    rfl
  · rw [List.find?_cons_of_neg _ (by simpa using h), if_neg h]

theorem indexLookup_replace_ne (m : SchemeManagerIndex) (k : String) (v : Bytes)
    (p : String) (hkp : ¬ k = p) :
    indexLookup (m.map (fun e => if e.1 = k then (k, v) else e)) p =
      indexLookup m p := by
  induction m with
  | nil => rfl
  | cons e rest ih =>
    rw [List.map_cons, indexLookup_cons, indexLookup_cons]
    by_cases hek : e.1 = k
    · rw [if_pos hek]
      have h1 : ¬ (k, v).1 = p := hkp
      have h2 : ¬ e.1 = p := by rw [hek]; exact hkp
      rw [if_neg h1, if_neg h2, ih]
    · rw [if_neg hek]
      by_cases hep : e.1 = p
      · rw [if_pos hep, if_pos hep]
      · rw [if_neg hep, if_neg hep, ih]

theorem indexLookup_replace_eq (m : SchemeManagerIndex) (k : String) (v : Bytes)
    (hc : m.any (fun e => e.1 = k) = true) :
    indexLookup (m.map (fun e => if e.1 = k then (k, v) else e)) k =
      some v := by
  induction m with
  | nil => simp at hc
  | cons e rest ih =>
    rw [List.map_cons, indexLookup_cons]
    by_cases hek : e.1 = k
    · rw [if_pos hek, if_pos (show (k, v).1 = k from rfl)]
    · rw [if_neg hek, if_neg (show ¬ e.1 = k from hek)]
      refine ih ?_
      rcases List.any_eq_true.mp hc with ⟨x, hx, hxk⟩
      rcases List.mem_cons.mp hx with h1 | h2
      · exfalso; subst h1; exact hek (by simpa using hxk)
      · exact List.any_eq_true.mpr ⟨x, h2, hxk⟩

theorem indexLookup_append_fresh (m : SchemeManagerIndex) (k : String)
    (v : Bytes) (p : String) :
    indexLookup (m ++ [(k, v)]) p =
      if k = p then
        (match indexLookup m p with
         | some w => some w
         | none => some v)
      else indexLookup m p := by
  induction m with
  | nil =>
    rw [List.nil_append, indexLookup_cons]
    by_cases h : k = p
    · rw [if_pos h, if_pos h, indexLookup_nil]
    · rw [if_neg h, if_neg h, indexLookup_nil]
  | cons e rest ih =>
    rw [List.cons_append, indexLookup_cons, indexLookup_cons]
    by_cases hep : e.1 = p
    · rw [if_pos hep]
      by_cases hkp : k = p
      · rw [if_pos hkp, if_pos hep]
      · rw [if_neg hkp, if_pos hep]
    · rw [if_neg hep, if_neg hep, ih]

theorem indexLookup_insert (m : SchemeManagerIndex) (k : String) (v : Bytes)
    (p : String) :
    indexLookup (indexInsert m k v) p =
      if k = p then some v else indexLookup m p := by
  unfold indexInsert
  by_cases hc : m.any (fun e => e.1 = k) = true
  · rw [if_pos (by simpa using hc)]
    by_cases hkp : k = p
    · subst hkp
      rw [if_pos rfl]
      exact indexLookup_replace_eq m k v hc
    · rw [if_neg hkp]
      exact indexLookup_replace_ne m k v p hkp
  · rw [if_neg (by simpa using hc), indexLookup_append_fresh]
    by_cases hkp : k = p
    · subst hkp
      rw [if_pos rfl, if_pos rfl]
      have hnone : indexLookup m k = none := by
        unfold indexLookup
        cases hfind : m.find? (fun e => e.1 = k) with
        | none => rfl
        | some e =>
          exfalso
          have hp := List.find?_some hfind
          have hm := List.mem_of_find?_eq_some hfind
          exact hc (List.any_eq_true.mpr ⟨e, hm, hp⟩)
      rw [hnone]
    · rw [if_neg hkp, if_neg hkp]

theorem keysOf_replace (m : SchemeManagerIndex) (k : String) (v : Bytes) :
    keysOf (m.map (fun e => if e.1 = k then (k, v) else e)) = keysOf m := by
  unfold keysOf
  rw [List.map_map]
  apply List.map_congr_left
  intro e _
  by_cases hek : e.1 = k
  · simp [Function.comp, hek]
  · simp [Function.comp, hek]

theorem keysOf_insert_mem (m : SchemeManagerIndex) (k : String) (v : Bytes)
    (p : String) :
    p ∈ keysOf (indexInsert m k v) ↔ p ∈ keysOf m ∨ p = k := by
  unfold indexInsert
  by_cases hc : m.any (fun e => e.1 = k) = true
  · rw [if_pos (by simpa using hc), keysOf_replace]
    rcases List.any_eq_true.mp hc with ⟨e, he, hek⟩
    constructor
    · exact Or.inl
    · rintro (h | rfl)
      · exact h
      · exact List.mem_map.mpr ⟨e, he, by simpa using hek⟩
  · rw [if_neg (by simpa using hc)]
    unfold keysOf
    rw [List.map_append]
    simp [List.mem_append, eq_comm]

theorem nodupKeys_insert (m : SchemeManagerIndex) (k : String) (v : Bytes)
    (hn : (keysOf m).Nodup) : (keysOf (indexInsert m k v)).Nodup := by
  unfold indexInsert
  by_cases hc : m.any (fun e => e.1 = k) = true
  · rw [if_pos (by simpa using hc), keysOf_replace]
    exact hn
  · rw [if_neg (by simpa using hc)]
    unfold keysOf
    rw [List.map_append]
    have hk : k ∉ keysOf m := by
      intro hmem
      rcases List.mem_map.mp hmem with ⟨e, he, hek⟩
      exact hc (List.any_eq_true.mpr ⟨e, he, by simpa using hek⟩)
    rw [List.nodup_append]
    refine ⟨hn, List.nodup_singleton k, ?_⟩
    intro a ha hb
    have hab : a = k := by simpa using hb
    exact hk (hab ▸ ha)

/-- The map `FromString` accumulates, as a fold of inserts. -/
def buildMap (es : List (String × Bytes)) (m0 : SchemeManagerIndex) :
    SchemeManagerIndex :=
  es.foldl (fun m e => indexInsert m e.1 e.2) m0

/-- The value of the last entry for a path, scanning left to right. -/
def lastVal (p : String) : List (String × Bytes) → Option Bytes
  | [] => none
  | e :: rest =>
    match lastVal p rest with
    | some v => some v
    | none => if e.1 = p then some e.2 else none

theorem buildMap_lookup (es : List (String × Bytes)) :
    ∀ (m0 : SchemeManagerIndex) (p : String),
    indexLookup (buildMap es m0) p =
      match lastVal p es with
      | some v => some v
      | none => indexLookup m0 p := by
  induction es with
  | nil => intro m0 p; rfl
  | cons e rest ih =>
    intro m0 p
    show indexLookup (buildMap rest (indexInsert m0 e.1 e.2)) p = _
    rw [ih]
    have hstep : lastVal p (e :: rest) =
        match lastVal p rest with
        | some v => some v
        | none => if e.1 = p then some e.2 else none := rfl
    rw [hstep]
    cases hl : lastVal p rest with
    | some v => rfl
    | none =>
      rw [indexLookup_insert]
      by_cases hep : e.1 = p
      · simp [hep]
      · simp [hep]

theorem buildMap_keys_mem (es : List (String × Bytes)) :
    ∀ (m0 : SchemeManagerIndex) (p : String),
    p ∈ keysOf (buildMap es m0) ↔ p ∈ keysOf m0 ∨ p ∈ keysOf es := by
  induction es with
  | nil => intro m0 p; simp [buildMap, keysOf]
  | cons e rest ih =>
    intro m0 p
    show p ∈ keysOf (buildMap rest (indexInsert m0 e.1 e.2)) ↔ _
    rw [ih, keysOf_insert_mem]
    unfold keysOf
    simp [List.mem_cons, eq_comm]
    tauto

theorem buildMap_nodup (es : List (String × Bytes)) :
    ∀ (m0 : SchemeManagerIndex), (keysOf m0).Nodup →
    (keysOf (buildMap es m0)).Nodup := by
  induction es with
  | nil => intro m0 h; exact h
  | cons e rest ih =>
    intro m0 h
    exact ih _ (nodupKeys_insert m0 e.1 e.2 h)

/-- Keep the first occurrence of each key (used from the right to model
"last entry wins"). -/
def dedupKeysAux (seen : List String) : List (String × Bytes) → List (String × Bytes)
  | [] => []
  | e :: rest =>
    if e.1 ∈ seen then dedupKeysAux seen rest
    else e :: dedupKeysAux (e.1 :: seen) rest

/-- The entries of a list with duplicates resolved last-wins, keeping one
entry per key. -/
def keepLast (l : List (String × Bytes)) : List (String × Bytes) :=
  (dedupKeysAux [] l.reverse).reverse

theorem indexLookup_append (l₁ l₂ : SchemeManagerIndex) (p : String) :
    indexLookup (l₁ ++ l₂) p =
      match indexLookup l₁ p with
      | some v => some v
      | none => indexLookup l₂ p := by
  induction l₁ with
  | nil => rfl
  | cons e t ih =>
    rw [List.cons_append, indexLookup_cons, indexLookup_cons]
    by_cases hep : e.1 = p
    · simp [hep]
    · simp [hep, ih]

theorem indexLookup_eq_none (l : SchemeManagerIndex) (p : String)
    (h : p ∉ keysOf l) : indexLookup l p = none := by
  unfold indexLookup
  cases hfind : l.find? (fun e => e.1 = p) with
  | none => rfl
  | some e =>
    exfalso
    have hp := List.find?_some hfind
    have hm := List.mem_of_find?_eq_some hfind
    exact h (List.mem_map.mpr ⟨e, hm, by simpa using hp⟩)

theorem lastVal_eq_reverse (p : String) (es : List (String × Bytes)) :
    lastVal p es = indexLookup es.reverse p := by
  induction es with
  | nil => rfl
  | cons e rest ih =>
    rw [List.reverse_cons, indexLookup_append]
    show (match lastVal p rest with
      | some v => some v
      | none => if e.1 = p then some e.2 else none) = _
    rw [ih, indexLookup_cons, indexLookup_nil]

theorem indexLookup_reverse (l : SchemeManagerIndex) (p : String)
    (hn : (keysOf l).Nodup) : indexLookup l.reverse p = indexLookup l p := by
  induction l with
  | nil => rfl
  | cons e t ih =>
    have hek : e.1 ∉ keysOf t := by
      intro hmem
      exact (List.nodup_cons.mp hn).1 hmem
    have hnt : (keysOf t).Nodup := (List.nodup_cons.mp hn).2
    rw [List.reverse_cons, indexLookup_append, ih hnt, indexLookup_cons]
    by_cases hep : e.1 = p
    · rw [if_pos hep]
      rw [indexLookup_eq_none t p (hep ▸ hek)]
      rw [indexLookup_cons, if_pos hep]
    · rw [if_neg hep]
      cases ht : indexLookup t p with
      | some v => rw [indexLookup_cons, if_neg hep, ht]
      | none =>
        rw [indexLookup_cons, if_neg hep, indexLookup_nil, ht]

theorem dedupKeysAux_lookup (l : List (String × Bytes)) :
    ∀ (seen : List String) (p : String), p ∉ seen →
    indexLookup (dedupKeysAux seen l) p = indexLookup l p := by
  induction l with
  | nil => intro seen p _; rfl
  | cons e rest ih =>
    intro seen p hp
    unfold dedupKeysAux
    by_cases hseen : e.1 ∈ seen
    · rw [if_pos hseen, indexLookup_cons, ih seen p hp]
      have hep : ¬ e.1 = p := fun h => hp (h ▸ hseen)
      rw [if_neg hep]
    · rw [if_neg hseen, indexLookup_cons, indexLookup_cons]
      by_cases hep : e.1 = p
      · rw [if_pos hep, if_pos hep]
      · rw [if_neg hep, if_neg hep]
        refine ih _ p ?_
        intro hmem
        rcases List.mem_cons.mp hmem with h1 | h2
        · exact hep h1.symm
        · exact hp h2

theorem dedupKeysAux_keys_mem (l : List (String × Bytes)) :
    ∀ (seen : List String) (p : String),
    p ∈ keysOf (dedupKeysAux seen l) ↔ p ∈ keysOf l ∧ p ∉ seen := by
  induction l with
  | nil => intro seen p; simp [dedupKeysAux, keysOf]
  | cons e rest ih =>
    intro seen p
    unfold dedupKeysAux
    by_cases hseen : e.1 ∈ seen
    · rw [if_pos hseen, ih]
      unfold keysOf
      simp only [List.map_cons, List.mem_cons]
      constructor
      · rintro ⟨h1, h2⟩; exact ⟨Or.inr h1, h2⟩
      · rintro ⟨h1 | h1, h2⟩
        · exact absurd (h1 ▸ hseen) h2
        · exact ⟨h1, h2⟩
    · rw [if_neg hseen]
      unfold keysOf
      simp only [List.map_cons, List.mem_cons]
      constructor
      · rintro (rfl | hmem)
        · exact ⟨Or.inl rfl, hseen⟩
        · have := (ih (e.1 :: seen) p).mp hmem
          refine ⟨Or.inr this.1, ?_⟩
          intro hs
          exact this.2 (List.mem_cons.mpr (Or.inr hs))
      · rintro ⟨rfl | hmem, hs⟩
        · exact Or.inl rfl
        · by_cases hpe : p = e.1
          · exact Or.inl hpe
          · refine Or.inr ((ih (e.1 :: seen) p).mpr ⟨hmem, ?_⟩)
            intro hc
            rcases List.mem_cons.mp hc with h1 | h2
            · exact hpe h1
            · exact hs h2

theorem dedupKeysAux_nodup (l : List (String × Bytes)) :
    ∀ (seen : List String), (keysOf (dedupKeysAux seen l)).Nodup := by
  induction l with
  | nil => intro seen; simp [dedupKeysAux, keysOf]
  | cons e rest ih =>
    intro seen
    unfold dedupKeysAux
    by_cases hseen : e.1 ∈ seen
    · rw [if_pos hseen]; exact ih seen
    · rw [if_neg hseen]
      unfold keysOf
      rw [List.map_cons, List.nodup_cons]
      refine ⟨?_, ih (e.1 :: seen)⟩
      intro hmem
      have := (dedupKeysAux_keys_mem rest (e.1 :: seen) e.1).mp hmem
      exact this.2 (List.mem_cons.mpr (Or.inl rfl))

theorem keepLast_nodup (l : List (String × Bytes)) :
    (keysOf (keepLast l)).Nodup := by
  unfold keepLast keysOf
  rw [List.map_reverse, List.nodup_reverse]
  exact dedupKeysAux_nodup l.reverse []

theorem keepLast_lookup (l : List (String × Bytes)) (p : String) :
    indexLookup (keepLast l) p = lastVal p l := by
  unfold keepLast
  rw [indexLookup_reverse _ p (dedupKeysAux_nodup l.reverse [])]
  rw [dedupKeysAux_lookup l.reverse [] p (by simp)]
  rw [lastVal_eq_reverse]

theorem keepLast_keys_mem (l : List (String × Bytes)) (p : String) :
    p ∈ keysOf (keepLast l) ↔ p ∈ keysOf l := by
  unfold keepLast keysOf
  rw [List.map_reverse, List.mem_reverse]
  have := dedupKeysAux_keys_mem l.reverse [] p
  unfold keysOf at this
  rw [this]
  simp [List.mem_reverse]

theorem char_toNat_inj (a b : Char) (h : a.toNat = b.toNat) : a = b := by
  have h2 : a.val.toNat = b.val.toNat := h
  exact Char.eq_of_val_eq (UInt32.toNat.inj h2)

theorem listLexLe_total (a : List Char) : ∀ b, listLexLe a b = true ∨ listLexLe b a = true := by
  induction a with
  | nil => intro b; left; rfl
  | cons x xs ih =>
    intro b
    cases b with
    | nil => right; rfl
    | cons y ys =>
      unfold listLexLe
      rcases Nat.lt_trichotomy x.toNat y.toNat with h | h | h
      · left; rw [if_pos h]
      · rw [if_neg (by omega), if_neg (by omega), if_neg (by omega),
          if_neg (by omega)]
        exact ih ys
      · right; rw [if_pos h]

theorem listLexLe_antisymm (a : List Char) :
    ∀ b, listLexLe a b = true → listLexLe b a = true → a = b := by
  induction a with
  | nil =>
    intro b h1 h2
    cases b with
    | nil => rfl
    | cons y ys => cases h2
  | cons x xs ih =>
    intro b h1 h2
    cases b with
    | nil => cases h1
    | cons y ys =>
      unfold listLexLe at h1 h2
      rcases Nat.lt_trichotomy x.toNat y.toNat with h | h | h
      · rw [if_neg (by omega), if_pos h] at h2
        cases h2
      · have hxy : x = y := char_toNat_inj x y h
        subst hxy
        rw [if_neg (by omega), if_neg (by omega)] at h1 h2
        rw [ih ys h1 h2]
      · rw [if_neg (by omega), if_pos h] at h1
        cases h1


theorem strLe_total (a b : String) : strLe a b = true ∨ strLe b a = true :=
  listLexLe_total a.data b.data

theorem strLe_antisymm (a b : String) (h1 : strLe a b = true)
    (h2 : strLe b a = true) : a = b := by
  have h3 := listLexLe_antisymm a.data b.data h1 h2
  cases a; cases b
  exact congrArg String.mk h3

theorem listLexLe_trans (a : List Char) :
    ∀ b c, listLexLe a b = true → listLexLe b c = true →
    listLexLe a c = true := by
  induction a with
  | nil => intro b c _ _; rfl
  | cons x xs ih =>
    intro b c h1 h2
    cases b with
    | nil => cases h1
    | cons y ys =>
      cases c with
      | nil => cases h2
      | cons z zs =>
        unfold listLexLe at h1 h2 ⊢
        rcases Nat.lt_trichotomy x.toNat y.toNat with hxy | hxy | hxy
        · rcases Nat.lt_trichotomy y.toNat z.toNat with hyz | hyz | hyz
          · rw [if_pos (by omega)]
          · rw [if_pos (by omega)]
          · rw [if_neg (by omega), if_pos hyz] at h2
            cases h2
        · rcases Nat.lt_trichotomy y.toNat z.toNat with hyz | hyz | hyz
          · rw [if_pos (by omega)]
          · rw [if_neg (by omega), if_neg (by omega)] at h1
            rw [if_neg (by omega), if_neg (by omega)] at h2
            rw [if_neg (by omega), if_neg (by omega)]
            exact ih ys zs h1 h2
          · rw [if_neg (by omega), if_pos hyz] at h2
            cases h2
        · rw [if_neg (by omega), if_pos hxy] at h1
          cases h1

theorem strLe_trans (a b c : String) (h1 : strLe a b = true)
    (h2 : strLe b c = true) : strLe a c = true :=
  listLexLe_trans a.data b.data c.data h1 h2

theorem insertSortedStr_perm (x : String) (l : List String) :
    (insertSortedStr x l).Perm (x :: l) := by
  induction l with
  | nil => exact List.Perm.refl _
  | cons y ys ih =>
    unfold insertSortedStr
    by_cases h : strLe x y = true
    · rw [if_pos h]
    · rw [if_neg h]
      exact (List.Perm.cons y ih).trans (List.Perm.swap x y ys)

theorem sortStrings_perm (l : List String) : (sortStrings l).Perm l := by
  induction l with
  | nil => exact List.Perm.refl _
  | cons x xs ih =>
    unfold sortStrings
    exact (insertSortedStr_perm x (sortStrings xs)).trans (List.Perm.cons x ih)

theorem insertSortedStr_sorted (x : String) (l : List String)
    (hs : l.Pairwise (fun a b => strLe a b = true)) :
    (insertSortedStr x l).Pairwise (fun a b => strLe a b = true) := by
  induction l with
  | nil => simp [insertSortedStr]
  | cons y ys ih =>
    unfold insertSortedStr
    rcases List.pairwise_cons.mp hs with ⟨hy, hys⟩
    by_cases h : strLe x y = true
    · rw [if_pos h]
      refine List.pairwise_cons.mpr ⟨?_, hs⟩
      intro z hz
      rcases List.mem_cons.mp hz with rfl | hz2
      · exact h
      · -- strLe x z: x ≤ y ≤ z; need transitivity
        have hyz := hy z hz2
        exact strLe_trans x y z h hyz
    · rw [if_neg h]
      refine List.pairwise_cons.mpr ⟨?_, ih hys⟩
      intro z hz
      have hz3 := (insertSortedStr_perm x ys).mem_iff.mp hz
      rcases List.mem_cons.mp hz3 with rfl | hz4
      · rcases strLe_total y z with h2 | h2
        · exact h2
        · exact absurd h2 h
      · exact hy z hz4

theorem sortStrings_sorted (l : List String) :
    (sortStrings l).Pairwise (fun a b => strLe a b = true) := by
  induction l with
  | nil => simp [sortStrings]
  | cons x xs ih => exact insertSortedStr_sorted x (sortStrings xs) ih

theorem sorted_nodup_unique (l₁ : List String) :
    ∀ l₂ : List String,
    l₁.Pairwise (fun a b => strLe a b = true) →
    l₂.Pairwise (fun a b => strLe a b = true) →
    l₁.Nodup → l₂.Nodup →
    (∀ x, x ∈ l₁ ↔ x ∈ l₂) → l₁ = l₂ := by
  induction l₁ with
  | nil =>
    intro l₂ _ _ _ _ hmem
    cases l₂ with
    | nil => rfl
    | cons b t₂ => exact absurd ((hmem b).mpr (by simp)) (by simp)
  | cons a t₁ ih =>
    intro l₂ hs1 hs2 hn1 hn2 hmem
    cases l₂ with
    | nil => exact absurd ((hmem a).mp (by simp)) (by simp)
    | cons b t₂ =>
      rcases List.pairwise_cons.mp hs1 with ⟨ha1, hs1t⟩
      rcases List.pairwise_cons.mp hs2 with ⟨hb2, hs2t⟩
      rcases List.nodup_cons.mp hn1 with ⟨hna, hn1t⟩
      rcases List.nodup_cons.mp hn2 with ⟨hnb, hn2t⟩
      have hab : a = b := by
        have haIn : a ∈ b :: t₂ := (hmem a).mp (by simp)
        have hbIn : b ∈ a :: t₁ := (hmem b).mpr (by simp)
        rcases List.mem_cons.mp haIn with h1 | h1
        · exact h1
        · rcases List.mem_cons.mp hbIn with h2 | h2
          · exact h2.symm
          · exact strLe_antisymm a b (ha1 b h2) (hb2 a h1)
      subst hab
      congr 1
      apply ih t₂ hs1t hs2t hn1t hn2t
      intro x
      constructor
      · intro hx
        have hx2 : x ∈ a :: t₂ := (hmem x).mp (by simp [hx])
        rcases List.mem_cons.mp hx2 with rfl | h
        · exact absurd hx hna
        · exact h
      · intro hx
        have hx2 : x ∈ a :: t₁ := (hmem x).mpr (by simp [hx])
        rcases List.mem_cons.mp hx2 with rfl | h
        · exact absurd hx hnb
        · exact h

theorem sortStrings_eq_of_mem (l₁ l₂ : List String)
    (hn1 : l₁.Nodup) (hn2 : l₂.Nodup)
    (hmem : ∀ x, x ∈ l₁ ↔ x ∈ l₂) :
    sortStrings l₁ = sortStrings l₂ :=
  sorted_nodup_unique (sortStrings l₁) (sortStrings l₂)
    (sortStrings_sorted l₁) (sortStrings_sorted l₂)
    ((sortStrings_perm l₁).nodup_iff.mpr hn1)
    ((sortStrings_perm l₂).nodup_iff.mpr hn2)
    (fun x => ((sortStrings_perm l₁).mem_iff).trans
      ((hmem x).trans ((sortStrings_perm l₂).mem_iff).symm))

/-- Parse one index line into its entry, exactly as `FromString` treats it
(empty lines skipped, two parts, hex-decoded hash). -/
def parseEntryLine (line : List Char) : Option (String × Bytes) :=
  if line.isEmpty then none
  else
    match splitOnChar ' ' line with
    | [p0, p1] =>
      match hexDecode p0 with
      | .ok h => some (String.mk p1, h)
      | .error _ => none
    | _ => none

/-- The entries of an index text, in line order. -/
def specEntries (s : String) : List (String × Bytes) :=
  (splitOnChar '\n' s.data).filterMap parseEntryLine

/-- The canonical serialization of an index text, per the spec's words:
the entries (duplicates resolved last-wins) in lexicographic path order,
each line the lowercase hex of the hash, one space, the path, and a
newline. -/
def canonicalSort (s : String) : String :=
  let uniq := keepLast (specEntries s)
  String.join ((sortStrings (uniq.map (·.1))).map
    (fun p => hexEncode ((indexLookup uniq p).getD []) ++ " " ++ p ++ "\n"))

theorem fromStringAux_eq_buildMap (lines : List (List Char)) :
    ∀ (m : SchemeManagerIndex) (j : Nat) (M : SchemeManagerIndex),
    fromStringAux m j lines = .ok M →
    M = buildMap (lines.filterMap parseEntryLine) m := by
  induction lines with
  | nil =>
    intro m j M h
    cases h
    rfl
  | cons line rest ih =>
    intro m j M h
    rw [List.filterMap_cons]
    by_cases hemp : line.isEmpty
    · have hstep : fromStringAux m j (line :: rest) = fromStringAux m (j + 1) rest := by
        conv_lhs => rw [fromStringAux]
        rw [if_pos hemp]
      rw [hstep] at h
      rw [show parseEntryLine line = none by unfold parseEntryLine; rw [if_pos hemp]]
      exact ih m (j + 1) M h
    · rcases hsp : splitOnChar ' ' line with _ | ⟨p0, _ | ⟨p1, _ | _⟩⟩
      · exfalso
        rw [show fromStringAux m j (line :: rest) =
            .error (.msg ("Scheme manager index line " ++ toString j ++
              " has incorrect amount of parts")) by
          conv_lhs => rw [fromStringAux]
          rw [if_neg hemp, hsp]] at h
        cases h
      · exfalso
        rw [show fromStringAux m j (line :: rest) =
            .error (.msg ("Scheme manager index line " ++ toString j ++
              " has incorrect amount of parts")) by
          conv_lhs => rw [fromStringAux]
          rw [if_neg hemp, hsp]] at h
        cases h
      · cases hdec : hexDecode p0 with
        | error e =>
          exfalso
          rw [show fromStringAux m j (line :: rest) = .error e by
            conv_lhs => rw [fromStringAux]
            rw [if_neg hemp, hsp]
            dsimp only
            rw [hdec]] at h
          cases h
        | ok hash =>
          have hstep : fromStringAux m j (line :: rest) =
              fromStringAux (indexInsert m (String.mk p1) hash) (j + 1) rest := by
            conv_lhs => rw [fromStringAux]
            rw [if_neg hemp, hsp]
            dsimp only
            rw [hdec]
          rw [hstep] at h
          rw [show parseEntryLine line = some (String.mk p1, hash) by
            unfold parseEntryLine
            rw [if_neg hemp, hsp]
            dsimp only
            rw [hdec]]
          exact ih _ (j + 1) M h
      · exfalso
        rw [show fromStringAux m j (line :: rest) =
            .error (.msg ("Scheme manager index line " ++ toString j ++
              " has incorrect amount of parts")) by
          conv_lhs => rw [fromStringAux]
          rw [if_neg hemp, hsp]] at h
        cases h

/-- C8: for every index text s accepted by `SchemeManagerIndex.FromString`,
serializing the parsed index with `SchemeManagerIndex.String` yields the
canonical form of s: the same entries (duplicate paths resolved last-wins,
as the parser's map assignment does) sorted in lexicographic path order,
each line the lowercase hex hash, a single space, the path, and a
terminating newline. -/
theorem fromString_toGoString_canonical (s : String) (M : SchemeManagerIndex)
    (h : SchemeManagerIndex.FromString s = .ok M) :
    SchemeManagerIndex.toGoString M = canonicalSort s := by
  have hM : M = buildMap (specEntries s) [] :=
    fromStringAux_eq_buildMap _ [] 0 M h
  subst hM
  unfold SchemeManagerIndex.toGoString canonicalSort
  have hkeys : sortStrings ((buildMap (specEntries s) []).map (·.1)) =
      sortStrings ((keepLast (specEntries s)).map (·.1)) := by
    apply sortStrings_eq_of_mem
    · exact buildMap_nodup (specEntries s) [] List.nodup_nil
    · exact keepLast_nodup (specEntries s)
    · intro x
      have h1 := buildMap_keys_mem (specEntries s) [] x
      have h2 := keepLast_keys_mem (specEntries s) x
      unfold keysOf at h1 h2
      rw [show ((buildMap (specEntries s) []).map (·.1) : List String) =
          keysOf (buildMap (specEntries s) []) from rfl,
        show ((keepLast (specEntries s)).map (·.1) : List String) =
          keysOf (keepLast (specEntries s)) from rfl]
      unfold keysOf
      rw [h1, h2]
      simp
  rw [hkeys]
  apply congrArg String.join
  apply List.map_congr_left
  intro p _
  have h1 : indexLookup (buildMap (specEntries s) []) p = lastVal p (specEntries s) := by
    rw [buildMap_lookup]
    cases hl : lastVal p (specEntries s) with
    | some v => rfl
    | none => rfl
  have h2 := keepLast_lookup (specEntries s) p
  rw [h1, h2]

/-- Witness for C8 at a concrete index text with a duplicate path, an
unsorted path order and an empty line. -/
theorem fromString_toGoString_canonical_witness :
    SchemeManagerIndex.FromString "abcd y\nab0f x\n\nffee y\n" =
      .ok [("y", [255, 238]), ("x", [171, 15])] ∧
    SchemeManagerIndex.toGoString [("y", [255, 238]), ("x", [171, 15])] =
      canonicalSort "abcd y\nab0f x\n\nffee y\n" :=
  ⟨rfl, fromString_toGoString_canonical "abcd y\nab0f x\n\nffee y\n"
    [("y", [255, 238]), ("x", [171, 15])] rfl⟩
